import Mathlib

/-!
Verification of the Boolean retrieval engine (index.py / search.py).

Shallow embedding conventions:
* Python lists of document IDs become `List Int`; the text of the postings
  file becomes `List Char`.
* The external normalizer (nltk tokenisation + Porter stemming + case
  folding) is a parameter `nrm : String → String` applied to each raw token,
  exactly where the source applies `stemmer.stem(tok).lower()`.
* Python exceptions (IndexError from `list.pop()` on an empty list, KeyError,
  ValueError from `int` on a non-numeric string, NameError from an unbound
  variable) are modelled as `none` of an `Option` result.
* `int(math.sqrt(n))` on a natural number is modelled as `int_sqrt`, a
  computable integer square root proved equal to `Nat.sqrt`.
* While-loops over indices are modelled as fuel-indexed structural
  recursions; the fuel passed by the top-level wrappers is proved sufficient.
-/

/-- Decimal digit character, as produced by Python `str` of a number. -/
def digitChar (d : Nat) : Char :=
  if d = 0 then '0' else if d = 1 then '1' else if d = 2 then '2'
  else if d = 3 then '3' else if d = 4 then '4' else if d = 5 then '5'
  else if d = 6 then '6' else if d = 7 then '7' else if d = 8 then '8' else '9'

/-- Value of a run of decimal digit characters (most significant first). -/
def digitsVal (cs : List Char) : Nat :=
  cs.foldl (fun a c => a * 10 + (c.toNat - 48)) 0

/-- Decimal rendering of a natural number, with explicit fuel
(`natToChars` below supplies sufficient fuel). -/
def natToCharsF : Nat → Nat → List Char
  | 0, _ => []
  | fuel + 1, n =>
    if n < 10 then [digitChar n]
    else natToCharsF fuel (n / 10) ++ [digitChar (n % 10)]

/-- Decimal rendering of a natural number (Python `str`). -/
def natToChars (n : Nat) : List Char := natToCharsF (n + 1) n

/-- Decimal rendering of an integer (Python `str` of an int). -/
def intToChars (n : Int) : List Char :=
  if n < 0 then '-' :: natToChars (-n).toNat else natToChars n.toNat

/-- Parse a run of decimal digits; `none` on the empty string or any
non-digit character (Python `int` raising ValueError). -/
def parseDigits (cs : List Char) : Option Nat :=
  if cs = [] then none
  else if cs.all (fun c => c.isDigit) then some (digitsVal cs) else none

/-- Python `int` of a string: optional leading minus sign, then digits.
(Whitespace stripping and a leading plus sign are not modelled; they never
occur in the strings this program produces.) -/
def parseInt (cs : List Char) : Option Int :=
  if cs.head? = some '-' then (parseDigits cs.tail).map (fun m => -(m : Int))
  else (parseDigits cs).map (fun m => (m : Int))

/-- Python `str.split(',')`: always returns at least one piece; adjacent
commas and leading/trailing commas yield empty pieces. -/
def splitOnComma : List Char → List (List Char)
  | [] => [[]]
  | c :: cs =>
    if c = ',' then [] :: splitOnComma cs
    else
      match splitOnComma cs with
      | [] => [[c]]
      | p :: ps => (c :: p) :: ps

/-- Python `','.join(pieces)`. -/
def joinComma : List (List Char) → List Char
  | [] => []
  | [p] => p
  | p :: ps => p ++ ',' :: joinComma ps

/-- Parse every piece as an integer; any failure aborts
(the Python list comprehension `[int(d) for d in s.split(',')]`). -/
def parseAll : List (List Char) → Option (List Int)
  | [] => some []
  | p :: ps =>
    match parseInt p, parseAll ps with
    | some v, some vs => some (v :: vs)
    | _, _ => none

/-- Integer square root (Python `int(math.sqrt(n))`), written as a
structural recursion so that it evaluates in the kernel; proved equal to
`Nat.sqrt` below. -/
def int_sqrt : Nat → Nat
  | 0 => 0
  | n + 1 =>
    let r := int_sqrt n
    if (r + 1) * (r + 1) ≤ n + 1 then r + 1 else r

/-! ## index.py -/

/-- Special dictionary key whose postings list contains all doc IDs. -/
def ALL_DOC_IDS : String := "## all doc IDs ##"

/-- `get_sorted_file_names`: the integer file names, sorted numerically.
Distinct file names are modelled directly as a list of integers. -/
def get_sorted_file_names (files : List Int) : List Int :=
  List.insertionSort (· ≤ ·) files

/-- The body of `create_postings_lists`'s per-token step: append the current
doc ID to a postings list unless it is already the last element
(`if len(postings) == 0 or postings[-1] != docID`). -/
def addToken (pl : List Int) (d : Int) : List Int :=
  if pl.getLast? = some d then pl else pl ++ [d]

/-- Process the normalized tokens of one document: for each raw token `w`,
update the postings list of the term `nrm w` via `addToken`. -/
def processTokens (nrm : String → String) (d : Int) :
    List String → (String → List Int) → (String → List Int)
  | [], m => m
  | w :: ws, m =>
    processTokens nrm d ws (fun t => if t = nrm w then addToken (m t) d else m t)

/-- Process one document: first append its ID unconditionally to the
sentinel all-documents list, then process its tokens.  A dictionary that
maps absent terms to `[]` models the on-demand creation of empty lists. -/
def processDoc (nrm : String → String) (d : Int) (ws : List String)
    (m : String → List Int) : String → List Int :=
  processTokens nrm d ws (fun t => if t = ALL_DOC_IDS then m t ++ [d] else m t)

/-- `create_postings_lists`: fold over documents in sorted doc-ID order.
`contents d` is the stream of raw tokens of the document named `d`. -/
def create_postings_lists (nrm : String → String) (files : List Int)
    (contents : Int → List String) : String → List Int :=
  (get_sorted_file_names files).foldl
    (fun m d => processDoc nrm d (contents d) m) (fun _ => [])

/-- `write_postings_list`: comma-joined decimal doc IDs followed by one
trailing space; the caller records the length of this string. -/
def write_postings_list (pl : List Int) : List Char :=
  joinComma (pl.map intToChars) ++ [' ']

/-- `write_index_to_disk`, with the running byte offset made explicit.
Returns the dictionary entries `(word, num_docs, offset, size_bytes,
skip_len)` in iteration order, and the bytes of the postings file. -/
def write_index_aux :
    List (String × List Int) → Nat → List (String × Nat × Nat × Nat × Nat) × List Char
  | [], _ => ([], [])
  | (w, pl) :: rest, offset =>
    let s := write_postings_list pl
    let r := write_index_aux rest (offset + s.length)
    ((w, pl.length, offset, s.length, int_sqrt pl.length) :: r.1, s ++ r.2)

/-- `write_index_to_disk` starting at offset 0. -/
def write_index_to_disk (pls : List (String × List Int)) :
    List (String × Nat × Nat × Nat × Nat) × List Char :=
  write_index_aux pls 0

/-! ## search.py -/

/-- Wrapper tuple storing a list of document IDs and the skip length. -/
structure QueryResult where
  doc_Ids : List Int
  skip_len : Nat
deriving DecidableEq, Repr

/-- A loaded dictionary: term to `(num_docs, offset, size_bytes, skip_len)`. -/
def Dict : Type := String → Option (Nat × Nat × Nat × Nat)

/-- `shunting_yard`'s precedence ordering (used only by the specification
variants below; the source tests tokens directly). -/
def sy_prec (s : String) : Nat :=
  if s = "NOT" then 3 else if s = "AND" then 2 else if s = "OR" then 1 else 0

/-- The token loop of `shunting_yard`; `out` is the output queue and `ops`
the operator stack with its top at the head.  `none` models the IndexError
raised by popping a missing '(' on an unmatched ')'. -/
def sy_run (nrm : String → String) :
    List String → List String → List String → Option (List String)
  | [], out, ops => some (out ++ ops)
  | tok :: ts, out, ops =>
    if tok = "(" then sy_run nrm ts out (tok :: ops)
    else if tok = ")" then
      let p := ops.span (fun s => decide (s ≠ "("))
      match p.2 with
      | [] => none
      | _ :: rest => sy_run nrm ts (out ++ p.1) rest
    else if tok = "NOT" then sy_run nrm ts out ("NOT" :: ops)
    else if tok = "AND" then
      let p := ops.span (fun s => decide (s = "NOT"))
      sy_run nrm ts (out ++ p.1) ("AND" :: p.2)
    else if tok = "OR" then
      let p := ops.span (fun s => decide (s = "NOT" ∨ s = "AND"))
      sy_run nrm ts (out ++ p.1) ("OR" :: p.2)
    else sy_run nrm ts (out ++ [nrm tok]) ops

/-- `shunting_yard` on a tokenized query. -/
def shunting_yard (nrm : String → String) (tokens : List String) :
    Option (List String) :=
  sy_run nrm tokens [] []

/-- `read_postings_list_from_disk`: look up the word's offset and size,
seek, read exactly `size` bytes, strip the trailing delimiter and split on
commas.  `none` models KeyError and ValueError. -/
def read_postings_list_from_disk (word : String) (dictionary : Dict)
    (postings : List Char) : Option (List Int) :=
  match dictionary word with
  | none => none
  | some (_, offset, size, _) =>
    parseAll (splitOnComma (((postings.drop offset).take size).dropLast))

/-- `get_query_result` applied to a term token (the branch taken when the
operand is not already a `QueryResult`): absent terms yield the empty
result, present terms are read from disk. -/
def get_query_result_term (w : String) (dictionary : Dict)
    (postings : List Char) : Option QueryResult :=
  match dictionary w with
  | none => some ⟨[], 0⟩
  | some e =>
    (read_postings_list_from_disk w dictionary postings).map
      (fun l => ⟨l, e.2.2.2⟩)

/-- `has_skip`. -/
def has_skip (idx skip_len total_len : Nat) : Bool :=
  if skip_len = 0 then false
  else if idx % skip_len = 0 ∧ idx + skip_len < total_len then true
  else false

/-- The short-circuit conjunction
`has_skip(j, s, len(l)) and l[j + s] <= t`: the lookahead access `l[j + s]`
is only evaluated when `has_skip` already holds, and is modelled as a
checked access (`none` = out-of-range). -/
def skipCond (l : List Int) (s : Nat) (t : Int) (j : Nat) : Option Bool :=
  if has_skip j s l.length then (l.get? (j + s)).map (fun v => decide (v ≤ t))
  else some false

/-- The inner `while has_skip(...) and l[j + s] <= t: j += s` loop. -/
def skipLoopF : Nat → List Int → Nat → Int → Nat → Option Nat
  | 0, _, _, _, _ => none
  | fuel + 1, l, s, t, j =>
    match skipCond l s t j with
    | none => none
    | some false => some j
    | some true => skipLoopF fuel l s t (j + s)

/-- The merge loop of `perform_and_query`, fuel-indexed.  All element
accesses are checked (`l.get? _`); `none` would signal an out-of-range
access or exhausted fuel. -/
def and_mergeF : Nat → List Int → List Int → Nat → Nat → Nat → Nat → Option (List Int)
  | 0, _, _, _, _, _, _ => none
  | fuel + 1, l1, l2, s1, s2, i, j =>
    if i < l1.length ∧ j < l2.length then
      match l1.get? i, l2.get? j with
      | some a, some b =>
        if a = b then (and_mergeF fuel l1 l2 s1 s2 (i + 1) (j + 1)).map (a :: ·)
        else if a < b then
          match skipCond l1 s1 b i with
          | none => none
          | some true =>
            match skipLoopF l1.length l1 s1 b (i + s1) with
            | none => none
            | some i' => and_mergeF fuel l1 l2 s1 s2 i' j
          | some false => and_mergeF fuel l1 l2 s1 s2 (i + 1) j
        else
          match skipCond l2 s2 a j with
          | none => none
          | some true =>
            match skipLoopF l2.length l2 s2 a (j + s2) with
            | none => none
            | some j' => and_mergeF fuel l1 l2 s1 s2 i j'
          | some false => and_mergeF fuel l1 l2 s1 s2 i (j + 1)
      | _, _ => none
    else some []

/-- The merge loop of `perform_and_not_query` (only the second operand's
skip length is used by the source), fuel-indexed; the trailing
`results.extend(list_1[i:])` is the `else` branch. -/
def and_not_mergeF : Nat → List Int → List Int → Nat → Nat → Nat → Option (List Int)
  | 0, _, _, _, _, _ => none
  | fuel + 1, l1, l2, s2, i, j =>
    if i < l1.length ∧ j < l2.length then
      match l1.get? i, l2.get? j with
      | some a, some b =>
        if a < b then (and_not_mergeF fuel l1 l2 s2 (i + 1) j).map (a :: ·)
        else if a = b then and_not_mergeF fuel l1 l2 s2 (i + 1) (j + 1)
        else
          match skipCond l2 s2 a j with
          | none => none
          | some true =>
            match skipLoopF l2.length l2 s2 a (j + s2) with
            | none => none
            | some j' => and_not_mergeF fuel l1 l2 s2 i j'
          | some false => and_not_mergeF fuel l1 l2 s2 i (j + 1)
      | _, _ => none
    else some (l1.drop i)

/-- The merge loop of `perform_or_query` (no skip pointers); the trailing
extends of both remainders are the `else` branch. -/
def or_mergeF : Nat → List Int → List Int → Nat → Nat → Option (List Int)
  | 0, _, _, _, _ => none
  | fuel + 1, l1, l2, i, j =>
    if i < l1.length ∧ j < l2.length then
      match l1.get? i, l2.get? j with
      | some a, some b =>
        if a < b then (or_mergeF fuel l1 l2 (i + 1) j).map (a :: ·)
        else if b < a then (or_mergeF fuel l1 l2 i (j + 1)).map (b :: ·)
        else (or_mergeF fuel l1 l2 (i + 1) (j + 1)).map (a :: ·)
      | _, _ => none
    else some (l1.drop i ++ l2.drop j)

/-- `perform_and_query` on resolved operands (``get_query_result`` returns a
`QueryResult` operand unchanged). -/
def perform_and_query (o1 o2 : QueryResult) : Option QueryResult :=
  (and_mergeF (o1.doc_Ids.length + o2.doc_Ids.length + 1)
      o1.doc_Ids o2.doc_Ids o1.skip_len o2.skip_len 0 0).map
    (fun r => ⟨r, int_sqrt r.length⟩)

/-- `perform_and_not_query` on resolved operands. -/
def perform_and_not_query (o1 o2 : QueryResult) : Option QueryResult :=
  (and_not_mergeF (o1.doc_Ids.length + o2.doc_Ids.length + 1)
      o1.doc_Ids o2.doc_Ids o2.skip_len 0 0).map
    (fun r => ⟨r, int_sqrt r.length⟩)

/-- `perform_or_query` on resolved operands, including the short-circuit
that returns a non-merged operand with skip length 0 when either list is
empty. -/
def perform_or_query (o1 o2 : QueryResult) : Option QueryResult :=
  if o1.doc_Ids.length = 0 ∨ o2.doc_Ids.length = 0 then
    if o1.doc_Ids.length > 0 then some ⟨o1.doc_Ids, 0⟩ else some ⟨o2.doc_Ids, 0⟩
  else
    (or_mergeF (o1.doc_Ids.length + o2.doc_Ids.length + 1)
        o1.doc_Ids o2.doc_Ids 0 0).map
      (fun r => ⟨r, int_sqrt r.length⟩)

/-- `perform_not_query`: all-documents list AND NOT operand. -/
def perform_not_query (dictionary : Dict) (postings : List Char)
    (o : QueryResult) : Option QueryResult :=
  (get_query_result_term ALL_DOC_IDS dictionary postings).bind
    (fun allres => perform_and_not_query allres o)

/-- The token loop of `perform_search_query`.  `stack` is the operand stack
(top at head); `prev` models the Python variable `query_res`, which is
unbound (`none`) until the first iteration assigns it.  In the `NOT NOT`
branch the source skips both tokens but still executes the shared
`stack.append(query_res)`, pushing the stale previous result; with `prev`
unbound this is a NameError (`none`). -/
def evalLoop (dictionary : Dict) (postings : List Char) :
    List String → List QueryResult → Option QueryResult → Option (List QueryResult)
  | [], stack, _ => some stack
  | "NOT" :: "AND" :: ts, stack, _ =>
    match stack with
    | o2 :: o1 :: rest =>
      match perform_and_not_query o1 o2 with
      | none => none
      | some qr => evalLoop dictionary postings ts (qr :: rest) (some qr)
    | _ => none
  | "NOT" :: "NOT" :: ts, stack, prev =>
    match prev with
    | none => none
    | some qr => evalLoop dictionary postings ts (qr :: stack) (some qr)
  | "NOT" :: ts, stack, _ =>
    match stack with
    | o :: rest =>
      match perform_not_query dictionary postings o with
      | none => none
      | some qr => evalLoop dictionary postings ts (qr :: rest) (some qr)
    | _ => none
  | "AND" :: ts, stack, _ =>
    match stack with
    | o2 :: o1 :: rest =>
      match perform_and_query o1 o2 with
      | none => none
      | some qr => evalLoop dictionary postings ts (qr :: rest) (some qr)
    | _ => none
  | "OR" :: ts, stack, _ =>
    match stack with
    | o2 :: o1 :: rest =>
      match perform_or_query o1 o2 with
      | none => none
      | some qr => evalLoop dictionary postings ts (qr :: rest) (some qr)
    | _ => none
  | tok :: ts, stack, _ =>
    match get_query_result_term tok dictionary postings with
    | none => none
    | some qr => evalLoop dictionary postings ts (qr :: stack) (some qr)

/-- `perform_search_query`: run the stack machine, then `stack.pop()` the
final result (extra elements left on the stack are ignored; an empty stack
is an IndexError). -/
def perform_search_query (dictionary : Dict) (postings : List Char)
    (query : List String) : Option (List Int) :=
  (evalLoop dictionary postings query [] none).bind
    (fun stack =>
      match stack with
      | top :: _ => some top.doc_Ids
      | [] => none)

/-- `run_search` over pre-tokenized query lines: parse and evaluate each
line in order, collecting one output line per query; an exception stops
the whole batch (the `Bool` is `false` when the run aborted early). -/
def run_search (nrm : String → String) (dictionary : Dict)
    (postings : List Char) : List (List String) → List (List Int) × Bool
  | [] => ([], true)
  | q :: qs =>
    match (shunting_yard nrm q).bind (perform_search_query dictionary postings) with
    | none => ([], false)
    | some res =>
      let r := run_search nrm dictionary postings qs
      (res :: r.1, r.2)

/-! ## Specification-side reference definitions -/

/-- Modelled from the spec: naive set-based intersection reference — the
elements of the first list that occur in the second. -/
def naive_and (l1 l2 : List Int) : List Int :=
  l1.filter (fun x => decide (x ∈ l2))

/-- Modelled from the spec: naive set-based difference reference — the
elements of the first list that do not occur in the second. -/
def naive_and_not (l1 l2 : List Int) : List Int :=
  l1.filter (fun x => decide (x ∉ l2))

/-- Modelled from the spec: naive set-based union reference — sort the
first list together with those elements of the second not already present. -/
def naive_or (l1 l2 : List Int) : List Int :=
  List.insertionSort (· ≤ ·) (l1 ++ l2.filter (fun x => decide (x ∉ l1)))

/-- Modelled from the spec: a linear (non-skipping) two-pointer
intersection merge. -/
def linear_and : List Int → List Int → List Int
  | a :: t1, b :: t2 =>
    if a = b then a :: linear_and t1 t2
    else if a < b then linear_and t1 (b :: t2)
    else linear_and (a :: t1) t2
  | _, [] => []
  | [], _ => []
termination_by l1 l2 => l1.length + l2.length

/-- Modelled from the spec: a linear (non-skipping) two-pointer
set-difference merge. -/
def linear_and_not : List Int → List Int → List Int
  | a :: t1, b :: t2 =>
    if a < b then a :: linear_and_not t1 (b :: t2)
    else if a = b then linear_and_not t1 t2
    else linear_and_not (a :: t1) t2
  | l1, [] => l1
  | [], _ => []
termination_by l1 l2 => l1.length + l2.length

/-- Structural two-pointer union merge with deduplication on equality
(proof-side characterisation of the union loop). -/
def merge_dedup : List Int → List Int → List Int
  | [], l2 => l2
  | l1, [] => l1
  | a :: t1, b :: t2 =>
    if a < b then a :: merge_dedup t1 (b :: t2)
    else if b < a then b :: merge_dedup (a :: t1) t2
    else a :: merge_dedup t1 t2
termination_by l1 l2 => l1.length + l2.length

/-- Modelled from the spec: the claimed shunting-yard loop, which on every
operator token pops all operators of equal-or-higher precedence before
pushing (parentheses and end-of-stream handled as in the source). -/
def sy_claim_run (nrm : String → String) :
    List String → List String → List String → Option (List String)
  | [], out, ops => some (out ++ ops)
  | tok :: ts, out, ops =>
    if tok = "(" then sy_claim_run nrm ts out (tok :: ops)
    else if tok = ")" then
      let p := ops.span (fun s => decide (s ≠ "("))
      match p.2 with
      | [] => none
      | _ :: rest => sy_claim_run nrm ts (out ++ p.1) rest
    else if tok = "NOT" ∨ tok = "AND" ∨ tok = "OR" then
      let p := ops.span (fun s => decide (s ≠ "(" ∧ sy_prec tok ≤ sy_prec s))
      sy_claim_run nrm ts (out ++ p.1) (tok :: p.2)
    else sy_claim_run nrm ts (out ++ [nrm tok]) ops

/-- The claimed shunting-yard algorithm (equal-or-higher popping). -/
def shunting_yard_claim (nrm : String → String) (tokens : List String) :
    Option (List String) :=
  sy_claim_run nrm tokens [] []

/-- The amended shunting-yard loop: pop only operators of strictly higher
precedence before pushing. -/
def sy_strict_run (nrm : String → String) :
    List String → List String → List String → Option (List String)
  | [], out, ops => some (out ++ ops)
  | tok :: ts, out, ops =>
    if tok = "(" then sy_strict_run nrm ts out (tok :: ops)
    else if tok = ")" then
      let p := ops.span (fun s => decide (s ≠ "("))
      match p.2 with
      | [] => none
      | _ :: rest => sy_strict_run nrm ts (out ++ p.1) rest
    else if tok = "NOT" ∨ tok = "AND" ∨ tok = "OR" then
      let p := ops.span (fun s => decide (s ≠ "(" ∧ sy_prec tok < sy_prec s))
      sy_strict_run nrm ts (out ++ p.1) (tok :: p.2)
    else sy_strict_run nrm ts (out ++ [nrm tok]) ops

/-- The amended shunting-yard algorithm (strictly-higher popping). -/
def shunting_yard_strict (nrm : String → String) (tokens : List String) :
    Option (List String) :=
  sy_strict_run nrm tokens [] []

/-! ## Concrete fixtures for counterexamples and witnesses -/

/-- A postings file holding the lists `[1]`, `[2]` and `[1, 2]`. -/
def exFile : List Char := ['1', ' ', '2', ' ', '1', ',', '2', ' ']

/-- A dictionary for `exFile`: term "a" occurs in document 1, term "b" in
document 2, and the sentinel lists both documents. -/
def exDict : Dict := fun w =>
  if w = "a" then some (1, 0, 2, 1)
  else if w = "b" then some (1, 2, 2, 1)
  else if w = ALL_DOC_IDS then some (2, 4, 4, 1)
  else none

/-! ## Basic list helpers -/

theorem getLast?_mem_of_eq {l : List Int} {a : Int} (h : l.getLast? = some a) :
    a ∈ l := by
  cases l with
  | nil => simp at h
  | cons x xs =>
    rw [List.getLast?_eq_getLast_of_ne_nil (by simp)] at h
    have h2 : (x :: xs).getLast (by simp) ∈ x :: xs := List.getLast_mem _
    simp only [Option.some.injEq] at h
    rwa [h] at h2

theorem pairwise_getD_lt {l : List Int} (h : l.Pairwise (· < ·)) {i j : Nat}
    (hij : i < j) (hj : j < l.length) : l.getD i 0 < l.getD j 0 := by
  have hi : i < l.length := lt_trans hij hj
  rw [List.getD_eq_getElem l 0 hi, List.getD_eq_getElem l 0 hj]
  have := List.pairwise_iff_get.1 h ⟨i, hi⟩ ⟨j, hj⟩ hij
  simpa using this

theorem mem_drop_iff {l : List Int} {j : Nat} {x : Int} :
    x ∈ l.drop j ↔ ∃ k, j ≤ k ∧ k < l.length ∧ l.getD k 0 = x := by
  constructor
  · intro hx
    rw [List.mem_iff_getElem] at hx
    obtain ⟨m, hm, hval⟩ := hx
    have hlen : j + m < l.length := by
      have := List.length_drop j l ▸ hm
      omega
    refine ⟨j + m, Nat.le_add_right _ _, hlen, ?_⟩
    rw [List.getD_eq_getElem l 0 hlen, ← hval]
    exact (List.getElem_drop l).symm
  · rintro ⟨k, hjk, hk, hval⟩
    rw [List.mem_iff_getElem]
    have hm : k - j < (l.drop j).length := by
      rw [List.length_drop]; omega
    refine ⟨k - j, hm, ?_⟩
    have : (l.drop j).get ⟨k - j, hm⟩ = l.get ⟨k, hk⟩ := by
      simp only [List.get_eq_getElem]
      rw [List.getElem_drop l]
      congr 1
      omega
    rw [← hval, List.getD_eq_getElem l 0 hk]
    simpa using this

theorem drop_head_le {l : List Int} (hs : l.Pairwise (· < ·)) {j : Nat}
    {x : Int} (hx : x ∈ l.drop j) : l.getD j 0 ≤ x := by
  rcases mem_drop_iff.1 hx with ⟨k, hjk, hk, hval⟩
  rcases Nat.eq_or_lt_of_le hjk with h | h
  · rw [h, hval]
  · exact le_of_lt (hval ▸ pairwise_getD_lt hs h hk)

theorem drop_cons_getD {l : List Int} {i : Nat} (h : i < l.length) :
    l.drop i = l.getD i 0 :: l.drop (i + 1) := by
  rw [List.getD_eq_getElem l 0 h]
  exact List.drop_eq_getElem_cons h

/-- After advancing a pointer past positions whose values are all below `t`,
membership of any value `≥ t` in the remaining suffix is unchanged. -/
theorem mem_drop_congr {l : List Int} {j j' : Nat} (hjj : j ≤ j')
    (hlt : ∀ k, j ≤ k → k < j' → l.getD k 0 < t) {x : Int} (hx : t ≤ x) :
    (x ∈ l.drop j ↔ x ∈ l.drop j') := by
  constructor
  · intro h
    rcases mem_drop_iff.1 h with ⟨k, hjk, hk, hval⟩
    rcases Nat.lt_or_ge k j' with hkj | hkj
    · exact absurd (hval ▸ hlt k hjk hkj) (not_lt.2 hx)
    · exact mem_drop_iff.2 ⟨k, hkj, hk, hval⟩
  · intro h
    rcases mem_drop_iff.1 h with ⟨k, hjk, hk, hval⟩
    exact mem_drop_iff.2 ⟨k, le_trans hjj hjk, hk, hval⟩

/-- Two strictly sorted lists with the same members are equal. -/
theorem sorted_lt_ext : ∀ {l1 l2 : List Int}, l1.Pairwise (· < ·) →
    l2.Pairwise (· < ·) → (∀ x, x ∈ l1 ↔ x ∈ l2) → l1 = l2 := by
  intro l1
  induction l1 with
  | nil =>
    intro l2 _ _ hm
    cases l2 with
    | nil => rfl
    | cons b t2 => exact absurd ((hm b).2 (by simp)) (by simp)
  | cons a t1 ih =>
    intro l2 h1 h2 hm
    cases l2 with
    | nil => exact absurd ((hm a).1 (by simp)) (by simp)
    | cons b t2 =>
      rcases List.pairwise_cons.1 h1 with ⟨ha, h1t⟩
      rcases List.pairwise_cons.1 h2 with ⟨hb, h2t⟩
      have hab : a = b := by
        rcases List.mem_cons.1 ((hm a).1 (List.mem_cons_self a t1)) with h | h
        · exact h
        · rcases List.mem_cons.1 ((hm b).2 (List.mem_cons_self b t2)) with h' | h'
          · exact h'.symm
          · exact absurd (lt_trans (ha b h') (hb a h)) (lt_irrefl a)
      subst hab
      have ht : t1 = t2 := by
        refine ih h1t h2t (fun x => ⟨fun hx => ?_, fun hx => ?_⟩)
        · rcases List.mem_cons.1 ((hm x).1 (List.mem_cons_of_mem a hx)) with h | h
          · exact absurd (ha x hx) (by rw [h]; exact lt_irrefl _)
          · exact h
        · rcases List.mem_cons.1 ((hm x).2 (List.mem_cons_of_mem a hx)) with h | h
          · exact absurd (hb x hx) (by rw [h]; exact lt_irrefl _)
          · exact h
      rw [ht]

/-- A `≤`-sorted list without duplicates is strictly sorted. -/
theorem pairwise_lt_of_sorted_nodup {l : List Int} (hs : l.Sorted (· ≤ ·))
    (hn : l.Nodup) : l.Pairwise (· < ·) :=
  (List.Pairwise.and hs hn).imp (fun hab => lt_of_le_of_ne hab.1 hab.2)

/-! ## Skip pointer lemmas -/

theorem get?_eq_getD {l : List Int} {i : Nat} (h : i < l.length) :
    l.get? i = some (l.getD i 0) := by
  rw [List.get?_eq_get h, List.getD_eq_getElem l 0 h]
  simp

theorem has_skip_true_iff {j s len : Nat} :
    has_skip j s len = true ↔ s ≠ 0 ∧ j % s = 0 ∧ j + s < len := by
  unfold has_skip
  split_ifs with h1 h2
  · simp [h1]
  · simp [h1, h2.1, h2.2]
  · simp only [Bool.false_eq_true, false_iff]
    intro h
    exact h2 ⟨h.2.1, h.2.2⟩

theorem skipCond_isSome (l : List Int) (s : Nat) (t : Int) (j : Nat) :
    (skipCond l s t j).isSome := by
  unfold skipCond
  split_ifs with h
  · rcases has_skip_true_iff.1 h with ⟨_, _, hb⟩
    have hj : j + s < l.length := hb
    rw [get?_eq_getD hj]
    simp
  · simp

theorem skipCond_eq_true {l : List Int} {s : Nat} {t : Int} {j : Nat}
    (h : skipCond l s t j = some true) :
    s ≠ 0 ∧ j + s < l.length ∧ l.getD (j + s) 0 ≤ t := by
  unfold skipCond at h
  split_ifs at h with hs
  · rcases has_skip_true_iff.1 hs with ⟨h0, _, hb⟩
    rw [get?_eq_getD hb] at h
    simp only [Option.map_some', Option.some.injEq] at h
    exact ⟨h0, hb, of_decide_eq_true h⟩
  · simp at h

theorem skipLoopF_spec :
    ∀ fuel (l : List Int) (s : Nat) (t : Int) (j : Nat), l.length - j < fuel →
      ∃ j', skipLoopF fuel l s t j = some j' ∧ j ≤ j' ∧
        (j < l.length → j' < l.length) ∧
        (l.Pairwise (· < ·) → ∀ k, j ≤ k → k < j' → l.getD k 0 < t) := by
  intro fuel
  induction fuel with
  | zero => intro l s t j h; omega
  | succ fuel ih =>
    intro l s t j hm
    rcases hc : skipCond l s t j with _ | bv
    · have := skipCond_isSome l s t j
      rw [hc] at this
      simp at this
    · cases bv with
      | false =>
        refine ⟨j, ?_, le_refl j, fun h => h, fun _ k hk1 hk2 => ?_⟩
        · rw [skipLoopF, hc]
        · omega
      | true =>
        rcases skipCond_eq_true hc with ⟨h0, hb, hv⟩
        have hjlen : j < l.length := by omega
        obtain ⟨j', heq, hge, hbnd, hrange⟩ :=
          ih l s t (j + s) (by omega)
        refine ⟨j', ?_, by omega, fun _ => hbnd hb, fun hsort k hk1 hk2 => ?_⟩
        · rw [skipLoopF, hc, heq]
        · rcases Nat.lt_or_ge k (j + s) with hk | hk
          · exact lt_of_lt_of_le (pairwise_getD_lt hsort hk hb) hv
          · exact hrange hsort k hk hk2

/-! ## Merge-loop correctness helpers -/

/-- Dropping a segment of positions whose values all fail the predicate
does not change a filtered suffix. -/
theorem filter_drop_of_false {l1 : List Int} {i i' : Nat} (hii : i ≤ i')
    {p : Int → Bool}
    (hrange : ∀ k, i ≤ k → k < i' → p (l1.getD k 0) = false) :
    (l1.drop i).filter p = (l1.drop i').filter p := by
  conv_lhs => rw [← List.take_append_drop (i' - i) (l1.drop i)]
  rw [List.drop_drop]
  have hdrop : l1.drop (i + (i' - i)) = l1.drop i' := by
    congr 1
    omega
  rw [hdrop, List.filter_append]
  have htake : (( l1.drop i).take (i' - i)).filter p = [] := by
    rw [List.filter_eq_nil_iff]
    intro x hx
    rw [List.mem_iff_getElem] at hx
    obtain ⟨m, hm, hval⟩ := hx
    have hlen : m < i' - i ∧ m < l1.length - i := by
      simp only [List.length_take, List.length_drop, lt_min_iff] at hm
      exact hm
    have hx1 : ((l1.drop i).take (i' - i))[m] = l1.getD (i + m) 0 := by
      rw [List.getElem_take, List.getElem_drop,
        List.getD_eq_getElem l1 0 (by omega)]
    rw [hx1] at hval
    rw [← hval, hrange (i + m) (by omega) (by omega)]
    simp
  rw [htake, List.nil_append]

/-- The intersection merge computes, from any loop state, the filter of the
remaining first suffix by membership in the remaining second suffix. -/
theorem and_mergeF_spec {l1 l2 : List Int} (h1 : l1.Pairwise (· < ·))
    (h2 : l2.Pairwise (· < ·)) (s1 s2 : Nat) :
    ∀ fuel i j, (l1.length - i) + (l2.length - j) < fuel →
      and_mergeF fuel l1 l2 s1 s2 i j =
        some ((l1.drop i).filter (fun x => decide (x ∈ l2.drop j))) := by
  intro fuel
  induction fuel with
  | zero => intro i j h; omega
  | succ fuel ih =>
    intro i j hm
    by_cases hij : i < l1.length ∧ j < l2.length
    case neg =>
      rw [and_mergeF, if_neg hij]
      rcases not_and_or.1 hij with h | h
      · rw [List.drop_eq_nil_of_le (le_of_not_lt h)]
        simp
      · rw [List.drop_eq_nil_of_le (le_of_not_lt h)]
        simp
    case pos =>
      obtain ⟨hi, hj⟩ := hij
      rw [and_mergeF, if_pos ⟨hi, hj⟩, get?_eq_getD hi, get?_eq_getD hj]
      dsimp only
      have hbmem : l2.getD j 0 ∈ l2.drop j := mem_drop_iff.2 ⟨j, le_refl j, hj, rfl⟩
      by_cases hab : l1.getD i 0 = l2.getD j 0
      · rw [if_pos hab, ih (i + 1) (j + 1) (by omega)]
        rw [drop_cons_getD hi, List.filter_cons,
          if_pos (show decide (l1.getD i 0 ∈ l2.drop j) = true from
            decide_eq_true (hab ▸ hbmem))]
        have hcongr : (l1.drop (i + 1)).filter (fun x => decide (x ∈ l2.drop (j + 1)))
            = (l1.drop (i + 1)).filter (fun x => decide (x ∈ l2.drop j)) := by
          apply List.filter_congr
          intro x hx
          have hax : l1.getD i 0 < x := by
            rcases mem_drop_iff.1 hx with ⟨k, hk1, hk2, hval⟩
            exact hval ▸ pairwise_getD_lt h1 (by omega) hk2
          refine (decide_eq_decide.2 ?_).symm
          refine mem_drop_congr (Nat.le_succ j) (fun k hk1 hk2 => ?_) (le_refl x)
          have hkj : k = j := by omega
          subst hkj
          exact hab ▸ hax
        rw [hcongr]
        simp
      · by_cases hlt : l1.getD i 0 < l2.getD j 0
        · rw [if_neg hab, if_pos hlt]
          rcases hc : skipCond l1 s1 (l2.getD j 0) i with _ | bv
          · have := skipCond_isSome l1 s1 (l2.getD j 0) i
            rw [hc] at this
            simp at this
          · cases bv with
            | false =>
              rw [ih (i + 1) j (by omega)]
              rw [drop_cons_getD hi, List.filter_cons,
                if_neg (show ¬decide (l1.getD i 0 ∈ l2.drop j) = true by
                  simp only [decide_eq_true_eq]
                  intro hmem
                  exact absurd (drop_head_le h2 hmem) (not_le.2 hlt))]
            | true =>
              rcases skipCond_eq_true hc with ⟨h0, hb, hv⟩
              obtain ⟨i', heq, hge, hbnd, hrange⟩ :=
                skipLoopF_spec l1.length l1 s1 (l2.getD j 0) (i + s1) (by omega)
              rw [heq]
              show and_mergeF fuel l1 l2 s1 s2 i' j = _
              rw [ih i' j (by omega)]
              have hall : ∀ k, i ≤ k → k < i' →
                  l1.getD k 0 < l2.getD j 0 := by
                intro k hk1 hk2
                rcases Nat.lt_or_ge k (i + s1) with hk | hk
                · rcases Nat.eq_or_lt_of_le hk1 with he | hlt2
                  · rw [← he]; exact hlt
                  · exact lt_of_lt_of_le (pairwise_getD_lt h1 hk hb) hv
                · exact hrange h1 k hk hk2
              have hfilter : (l1.drop i).filter (fun x => decide (x ∈ l2.drop j))
                  = (l1.drop i').filter (fun x => decide (x ∈ l2.drop j)) := by
                apply filter_drop_of_false (show i ≤ i' by omega)
                intro k hk1 hk2
                simp only [decide_eq_false_iff_not]
                intro hmem
                exact absurd (drop_head_le h2 hmem) (not_le.2 (hall k hk1 hk2))
              rw [hfilter]
        · have hba : l2.getD j 0 < l1.getD i 0 :=
            lt_of_le_of_ne (not_lt.1 hlt) (fun he => hab he.symm)
          rw [if_neg hab, if_neg hlt]
          rcases hc : skipCond l2 s2 (l1.getD i 0) j with _ | bv
          · have := skipCond_isSome l2 s2 (l1.getD i 0) j
            rw [hc] at this
            simp at this
          · cases bv with
            | false =>
              show and_mergeF fuel l1 l2 s1 s2 i (j + 1) = _
              rw [ih i (j + 1) (by omega)]
              apply congrArg
              apply List.filter_congr
              intro x hx
              have hax : l1.getD i 0 ≤ x := drop_head_le h1 hx
              apply decide_eq_decide.2
              apply Iff.symm
              refine mem_drop_congr (show j ≤ j + 1 by omega)
                (fun k hk1 hk2 => ?_) (le_refl x)
              have hkj : k = j := by omega
              subst hkj
              exact lt_of_lt_of_le hba hax
            | true =>
              rcases skipCond_eq_true hc with ⟨h0, hb, hv⟩
              obtain ⟨j', heq, hge, hbnd, hrange⟩ :=
                skipLoopF_spec l2.length l2 s2 (l1.getD i 0) (j + s2) (by omega)
              rw [heq]
              show and_mergeF fuel l1 l2 s1 s2 i j' = _
              rw [ih i j' (by omega)]
              have hall : ∀ k, j ≤ k → k < j' →
                  l2.getD k 0 < l1.getD i 0 := by
                intro k hk1 hk2
                rcases Nat.lt_or_ge k (j + s2) with hk | hk
                · rcases Nat.eq_or_lt_of_le hk1 with he | hlt2
                  · rw [← he]; exact hba
                  · exact lt_of_lt_of_le (pairwise_getD_lt h2 hk hb) hv
                · exact hrange h2 k hk hk2
              apply congrArg
              apply List.filter_congr
              intro x hx
              have hax : l1.getD i 0 ≤ x := drop_head_le h1 hx
              apply decide_eq_decide.2
              apply Iff.symm
              exact mem_drop_congr (show j ≤ j' by omega)
                (fun k hk1 hk2 => lt_of_lt_of_le (hall k hk1 hk2) hax) (le_refl x)

/-- The set-difference merge computes, from any loop state, the filter of
the remaining first suffix by non-membership in the remaining second
suffix. -/
theorem and_not_mergeF_spec {l1 l2 : List Int} (h1 : l1.Pairwise (· < ·))
    (h2 : l2.Pairwise (· < ·)) (s2 : Nat) :
    ∀ fuel i j, (l1.length - i) + (l2.length - j) < fuel →
      and_not_mergeF fuel l1 l2 s2 i j =
        some ((l1.drop i).filter (fun x => decide (x ∉ l2.drop j))) := by
  intro fuel
  induction fuel with
  | zero => intro i j h; omega
  | succ fuel ih =>
    intro i j hm
    by_cases hij : i < l1.length ∧ j < l2.length
    case neg =>
      rw [and_not_mergeF, if_neg hij]
      rcases not_and_or.1 hij with h | h
      · rw [List.drop_eq_nil_of_le (le_of_not_lt h)]
        simp
      · rw [List.drop_eq_nil_of_le (le_of_not_lt h)]
        simp
    case pos =>
      obtain ⟨hi, hj⟩ := hij
      rw [and_not_mergeF, if_pos ⟨hi, hj⟩, get?_eq_getD hi, get?_eq_getD hj]
      dsimp only
      have hbmem : l2.getD j 0 ∈ l2.drop j := mem_drop_iff.2 ⟨j, le_refl j, hj, rfl⟩
      by_cases hlt : l1.getD i 0 < l2.getD j 0
      · rw [if_pos hlt, ih (i + 1) j (by omega)]
        rw [drop_cons_getD hi, List.filter_cons,
          if_pos (show decide (l1.getD i 0 ∉ l2.drop j) = true by
            simp only [decide_eq_true_eq]
            intro hmem
            exact absurd (drop_head_le h2 hmem) (not_le.2 hlt))]
        simp
      · by_cases hab : l1.getD i 0 = l2.getD j 0
        · rw [if_neg hlt, if_pos hab, ih (i + 1) (j + 1) (by omega)]
          rw [drop_cons_getD hi, List.filter_cons,
            if_neg (show ¬decide (l1.getD i 0 ∉ l2.drop j) = true by
              simp only [decide_eq_true_eq, not_not]
              exact hab ▸ hbmem)]
          apply congrArg
          apply List.filter_congr
          intro x hx
          have hax : l1.getD i 0 < x := by
            rcases mem_drop_iff.1 hx with ⟨k, hk1, hk2, hval⟩
            exact hval ▸ pairwise_getD_lt h1 (by omega) hk2
          apply decide_eq_decide.2
          apply not_congr
          apply Iff.symm
          refine mem_drop_congr (show j ≤ j + 1 by omega)
            (fun k hk1 hk2 => ?_) (le_refl x)
          have hkj : k = j := by omega
          subst hkj
          exact hab ▸ hax
        · have hba : l2.getD j 0 < l1.getD i 0 :=
            lt_of_le_of_ne (not_lt.1 hlt) (fun he => hab he.symm)
          rw [if_neg hlt, if_neg hab]
          rcases hc : skipCond l2 s2 (l1.getD i 0) j with _ | bv
          · have := skipCond_isSome l2 s2 (l1.getD i 0) j
            rw [hc] at this
            simp at this
          · cases bv with
            | false =>
              show and_not_mergeF fuel l1 l2 s2 i (j + 1) = _
              rw [ih i (j + 1) (by omega)]
              apply congrArg
              apply List.filter_congr
              intro x hx
              have hax : l1.getD i 0 ≤ x := drop_head_le h1 hx
              apply decide_eq_decide.2
              apply not_congr
              apply Iff.symm
              refine mem_drop_congr (show j ≤ j + 1 by omega)
                (fun k hk1 hk2 => ?_) (le_refl x)
              have hkj : k = j := by omega
              subst hkj
              exact lt_of_lt_of_le hba hax
            | true =>
              rcases skipCond_eq_true hc with ⟨h0, hb, hv⟩
              obtain ⟨j', heq, hge, hbnd, hrange⟩ :=
                skipLoopF_spec l2.length l2 s2 (l1.getD i 0) (j + s2) (by omega)
              rw [heq]
              show and_not_mergeF fuel l1 l2 s2 i j' = _
              rw [ih i j' (by omega)]
              have hall : ∀ k, j ≤ k → k < j' →
                  l2.getD k 0 < l1.getD i 0 := by
                intro k hk1 hk2
                rcases Nat.lt_or_ge k (j + s2) with hk | hk
                · rcases Nat.eq_or_lt_of_le hk1 with he | hlt2
                  · rw [← he]; exact hba
                  · exact lt_of_lt_of_le (pairwise_getD_lt h2 hk hb) hv
                · exact hrange h2 k hk hk2
              apply congrArg
              apply List.filter_congr
              intro x hx
              have hax : l1.getD i 0 ≤ x := drop_head_le h1 hx
              apply decide_eq_decide.2
              apply not_congr
              apply Iff.symm
              exact mem_drop_congr (show j ≤ j' by omega)
                (fun k hk1 hk2 => lt_of_lt_of_le (hall k hk1 hk2) hax) (le_refl x)

theorem merge_dedup_nil_right : ∀ l : List Int, merge_dedup l [] = l := by
  intro l
  cases l <;> simp [merge_dedup]

theorem merge_dedup_nil_left : ∀ l : List Int, merge_dedup [] l = l := by
  intro l
  rw [merge_dedup]

/-- The union merge computes, from any loop state, the deduplicating
structural merge of the two remaining suffixes (no sortedness needed). -/
theorem or_mergeF_spec (l1 l2 : List Int) :
    ∀ fuel i j, (l1.length - i) + (l2.length - j) < fuel →
      or_mergeF fuel l1 l2 i j = some (merge_dedup (l1.drop i) (l2.drop j)) := by
  intro fuel
  induction fuel with
  | zero => intro i j h; omega
  | succ fuel ih =>
    intro i j hm
    by_cases hij : i < l1.length ∧ j < l2.length
    case neg =>
      rw [or_mergeF, if_neg hij]
      rcases not_and_or.1 hij with h | h
      · rw [List.drop_eq_nil_of_le (le_of_not_lt h), merge_dedup_nil_left,
          List.nil_append]
      · rw [List.drop_eq_nil_of_le (le_of_not_lt h), merge_dedup_nil_right,
          List.append_nil]
    case pos =>
      obtain ⟨hi, hj⟩ := hij
      rw [or_mergeF, if_pos ⟨hi, hj⟩, get?_eq_getD hi, get?_eq_getD hj]
      dsimp only
      rw [drop_cons_getD hi, drop_cons_getD hj, merge_dedup]
      by_cases hab : l1.getD i 0 < l2.getD j 0
      · rw [if_pos hab, if_pos hab, ih (i + 1) j (by omega),
          drop_cons_getD hj]
        simp
      · by_cases hba : l2.getD j 0 < l1.getD i 0
        · rw [if_neg hab, if_pos hba, if_neg hab, if_pos hba,
            ih i (j + 1) (by omega), drop_cons_getD hi]
          simp
        · rw [if_neg hab, if_neg hba, if_neg hab, if_neg hba,
            ih (i + 1) (j + 1) (by omega)]
          simp

/-- Membership in the deduplicating merge. -/
theorem merge_dedup_mem : ∀ (l1 l2 : List Int) (x : Int),
    x ∈ merge_dedup l1 l2 ↔ x ∈ l1 ∨ x ∈ l2 := by
  intro l1
  induction l1 with
  | nil => intro l2 x; rw [merge_dedup_nil_left]; simp
  | cons a t1 ih =>
    intro l2
    induction l2 with
    | nil => intro x; rw [merge_dedup_nil_right]; simp
    | cons b t2 ih2 =>
      intro x
      rw [merge_dedup]
      split_ifs with h1 h2
      · simp only [List.mem_cons, ih]
        tauto
      · have h3 := ih2 x
        simp only [List.mem_cons] at h3 ⊢
        rw [h3]
        tauto
      · have hab : a = b := le_antisymm (not_lt.1 h2) (not_lt.1 h1)
        subst hab
        simp only [List.mem_cons, ih]
        tauto

/-- Sortedness of the deduplicating merge. -/
theorem merge_dedup_sorted : ∀ {l1 l2 : List Int}, l1.Pairwise (· < ·) →
    l2.Pairwise (· < ·) → (merge_dedup l1 l2).Pairwise (· < ·) := by
  intro l1
  induction l1 with
  | nil => intro l2 _ h2; rw [merge_dedup_nil_left]; exact h2
  | cons a t1 ih =>
    intro l2
    induction l2 with
    | nil => intro h1 _; rw [merge_dedup_nil_right]; exact h1
    | cons b t2 ih2 =>
      intro h1 h2
      rcases List.pairwise_cons.1 h1 with ⟨ha, h1t⟩
      rcases List.pairwise_cons.1 h2 with ⟨hb, h2t⟩
      rw [merge_dedup]
      split_ifs with hlt1 hlt2
      · refine List.pairwise_cons.2 ⟨?_, ih h1t h2⟩
        intro y hy
        rcases (merge_dedup_mem t1 (b :: t2) y).1 hy with h | h
        · exact ha y h
        · rcases List.mem_cons.1 h with h' | h'
          · exact h' ▸ hlt1
          · exact lt_trans hlt1 (hb y h')
      · refine List.pairwise_cons.2 ⟨?_, ih2 h1 h2t⟩
        intro y hy
        rcases (merge_dedup_mem (a :: t1) t2 y).1 hy with h | h
        · rcases List.mem_cons.1 h with h' | h'
          · exact h' ▸ hlt2
          · exact lt_trans hlt2 (ha y h')
        · exact hb y h
      · have hab : a = b := le_antisymm (not_lt.1 hlt2) (not_lt.1 hlt1)
        refine List.pairwise_cons.2 ⟨?_, ih h1t h2t⟩
        intro y hy
        rcases (merge_dedup_mem t1 t2 y).1 hy with h | h
        · exact ha y h
        · exact hab ▸ hb y h

/-- Totality of the intersection merge for arbitrary inputs and strides:
no access is out of range and the loop terminates within the given fuel. -/
theorem and_mergeF_total (l1 l2 : List Int) (s1 s2 : Nat) :
    ∀ fuel i j, (l1.length - i) + (l2.length - j) < fuel →
      (and_mergeF fuel l1 l2 s1 s2 i j).isSome = true := by
  intro fuel
  induction fuel with
  | zero => intro i j h; omega
  | succ fuel ih =>
    intro i j hm
    by_cases hij : i < l1.length ∧ j < l2.length
    case neg => rw [and_mergeF, if_neg hij]; simp
    case pos =>
      obtain ⟨hi, hj⟩ := hij
      rw [and_mergeF, if_pos ⟨hi, hj⟩, get?_eq_getD hi, get?_eq_getD hj]
      dsimp only
      by_cases hab : l1.getD i 0 = l2.getD j 0
      · rw [if_pos hab]
        have h := ih (i + 1) (j + 1) (by omega)
        rcases Option.isSome_iff_exists.1 h with ⟨r, hr⟩
        rw [hr]
        simp
      · by_cases hlt : l1.getD i 0 < l2.getD j 0
        · rw [if_neg hab, if_pos hlt]
          rcases hc : skipCond l1 s1 (l2.getD j 0) i with _ | bv
          · have := skipCond_isSome l1 s1 (l2.getD j 0) i
            rw [hc] at this
            simp at this
          · cases bv with
            | false => exact ih (i + 1) j (by omega)
            | true =>
              rcases skipCond_eq_true hc with ⟨h0, hb, hv⟩
              obtain ⟨i', heq, hge, hbnd, _⟩ :=
                skipLoopF_spec l1.length l1 s1 (l2.getD j 0) (i + s1) (by omega)
              rw [heq]
              show (and_mergeF fuel l1 l2 s1 s2 i' j).isSome = true
              exact ih i' j (by omega)
        · rw [if_neg hab, if_neg hlt]
          rcases hc : skipCond l2 s2 (l1.getD i 0) j with _ | bv
          · have := skipCond_isSome l2 s2 (l1.getD i 0) j
            rw [hc] at this
            simp at this
          · cases bv with
            | false => exact ih i (j + 1) (by omega)
            | true =>
              rcases skipCond_eq_true hc with ⟨h0, hb, hv⟩
              obtain ⟨j', heq, hge, hbnd, _⟩ :=
                skipLoopF_spec l2.length l2 s2 (l1.getD i 0) (j + s2) (by omega)
              rw [heq]
              show (and_mergeF fuel l1 l2 s1 s2 i j').isSome = true
              exact ih i j' (by omega)

/-- Totality of the set-difference merge for arbitrary inputs and strides. -/
theorem and_not_mergeF_total (l1 l2 : List Int) (s2 : Nat) :
    ∀ fuel i j, (l1.length - i) + (l2.length - j) < fuel →
      (and_not_mergeF fuel l1 l2 s2 i j).isSome = true := by
  intro fuel
  induction fuel with
  | zero => intro i j h; omega
  | succ fuel ih =>
    intro i j hm
    by_cases hij : i < l1.length ∧ j < l2.length
    case neg => rw [and_not_mergeF, if_neg hij]; simp
    case pos =>
      obtain ⟨hi, hj⟩ := hij
      rw [and_not_mergeF, if_pos ⟨hi, hj⟩, get?_eq_getD hi, get?_eq_getD hj]
      dsimp only
      by_cases hlt : l1.getD i 0 < l2.getD j 0
      · rw [if_pos hlt]
        have h := ih (i + 1) j (by omega)
        rcases Option.isSome_iff_exists.1 h with ⟨r, hr⟩
        rw [hr]
        simp
      · by_cases hab : l1.getD i 0 = l2.getD j 0
        · rw [if_neg hlt, if_pos hab]
          exact ih (i + 1) (j + 1) (by omega)
        · rw [if_neg hlt, if_neg hab]
          rcases hc : skipCond l2 s2 (l1.getD i 0) j with _ | bv
          · have := skipCond_isSome l2 s2 (l1.getD i 0) j
            rw [hc] at this
            simp at this
          · cases bv with
            | false => exact ih i (j + 1) (by omega)
            | true =>
              rcases skipCond_eq_true hc with ⟨h0, hb, hv⟩
              obtain ⟨j', heq, hge, hbnd, _⟩ :=
                skipLoopF_spec l2.length l2 s2 (l1.getD i 0) (j + s2) (by omega)
              rw [heq]
              show (and_not_mergeF fuel l1 l2 s2 i j').isSome = true
              exact ih i j' (by omega)

theorem sorted_cons_head_le {b : Int} {t2 : List Int}
    (h : (b :: t2).Pairwise (· < ·)) {x : Int} (hx : x ∈ b :: t2) : b ≤ x := by
  rcases List.mem_cons.1 hx with h' | h'
  · exact le_of_eq h'.symm
  · exact le_of_lt ((List.pairwise_cons.1 h).1 x h')

/-- The linear (non-skipping) intersection merge is the membership filter. -/
theorem linear_and_spec : ∀ {l1 l2 : List Int}, l1.Pairwise (· < ·) →
    l2.Pairwise (· < ·) →
    linear_and l1 l2 = l1.filter (fun x => decide (x ∈ l2)) := by
  intro l1
  induction l1 with
  | nil => intro l2 _ _; cases l2 <;> simp [linear_and]
  | cons a t1 ih =>
    intro l2
    induction l2 with
    | nil => intro _ _; simp [linear_and]
    | cons b t2 ih2 =>
      intro h1 h2
      rcases List.pairwise_cons.1 h1 with ⟨ha, h1t⟩
      rcases List.pairwise_cons.1 h2 with ⟨hb, h2t⟩
      rw [linear_and]
      split_ifs with hab hlt
      · subst hab
        rw [List.filter_cons, if_pos (by simp)]
        rw [ih h1t h2t]
        apply congrArg
        apply List.filter_congr
        intro x hx
        apply decide_eq_decide.2
        constructor
        · intro h; exact List.mem_cons_of_mem _ h
        · intro h
          rcases List.mem_cons.1 h with h' | h'
          · exact absurd (h' ▸ ha x hx) (lt_irrefl x)
          · exact h'
      · rw [List.filter_cons,
          if_neg (by
            simp only [decide_eq_true_eq]
            intro hmem
            exact absurd (sorted_cons_head_le h2 hmem) (not_le.2 hlt))]
        exact ih h1t h2
      · have hba : b < a := by
          rcases lt_trichotomy a b with h | h | h
          · exact absurd h hlt
          · exact absurd h hab
          · exact h
        rw [ih2 h1 h2t]
        apply List.filter_congr
        intro x hx
        apply decide_eq_decide.2
        have hax : a ≤ x := sorted_cons_head_le h1 hx
        constructor
        · intro h; exact List.mem_cons_of_mem _ h
        · intro h
          rcases List.mem_cons.1 h with h' | h'
          · subst h'
            exact absurd (lt_of_lt_of_le hba hax) (lt_irrefl x)
          · exact h'

/-- The linear (non-skipping) set-difference merge is the non-membership
filter. -/
theorem linear_and_not_spec : ∀ {l1 l2 : List Int}, l1.Pairwise (· < ·) →
    l2.Pairwise (· < ·) →
    linear_and_not l1 l2 = l1.filter (fun x => decide (x ∉ l2)) := by
  intro l1
  induction l1 with
  | nil => intro l2 _ _; cases l2 <;> simp [linear_and_not]
  | cons a t1 ih =>
    intro l2
    induction l2 with
    | nil => intro _ _; simp [linear_and_not]
    | cons b t2 ih2 =>
      intro h1 h2
      rcases List.pairwise_cons.1 h1 with ⟨ha, h1t⟩
      rcases List.pairwise_cons.1 h2 with ⟨hb, h2t⟩
      rw [linear_and_not]
      split_ifs with hlt hab
      · rw [List.filter_cons,
          if_pos (by
            simp only [decide_eq_true_eq]
            intro hmem
            exact absurd (sorted_cons_head_le h2 hmem) (not_le.2 hlt))]
        rw [ih h1t h2]
      · subst hab
        rw [List.filter_cons, if_neg (by simp)]
        rw [ih h1t h2t]
        apply List.filter_congr
        intro x hx
        apply decide_eq_decide.2
        apply not_congr
        constructor
        · intro h; exact List.mem_cons_of_mem _ h
        · intro h
          rcases List.mem_cons.1 h with h' | h'
          · subst h'
            exact absurd (ha x hx) (lt_irrefl x)
          · exact h'
      · have hba : b < a := by
          rcases lt_trichotomy a b with h | h | h
          · exact absurd h hlt
          · exact absurd h hab
          · exact h
        rw [ih2 h1 h2t]
        apply List.filter_congr
        intro x hx
        apply decide_eq_decide.2
        apply not_congr
        have hax : a ≤ x := sorted_cons_head_le h1 hx
        constructor
        · intro h; exact List.mem_cons_of_mem _ h
        · intro h
          rcases List.mem_cons.1 h with h' | h'
          · subst h'
            exact absurd (lt_of_lt_of_le hba hax) (lt_irrefl x)
          · exact h'

theorem naive_or_mem (l1 l2 : List Int) (x : Int) :
    x ∈ naive_or l1 l2 ↔ x ∈ l1 ∨ x ∈ l2 := by
  unfold naive_or
  rw [List.mem_insertionSort]
  simp only [List.mem_append, List.mem_filter, decide_eq_true_eq]
  constructor
  · rintro (h | ⟨h, _⟩)
    · exact Or.inl h
    · exact Or.inr h
  · rintro (h | h)
    · exact Or.inl h
    · by_cases hm : x ∈ l1
      · exact Or.inl hm
      · exact Or.inr ⟨h, by simpa using hm⟩

theorem naive_or_sorted {l1 l2 : List Int} (h1 : l1.Pairwise (· < ·))
    (h2 : l2.Pairwise (· < ·)) : (naive_or l1 l2).Pairwise (· < ·) := by
  unfold naive_or
  apply pairwise_lt_of_sorted_nodup (List.sorted_insertionSort (· ≤ ·) _)
  apply ((List.perm_insertionSort (· ≤ ·)
    (l1 ++ l2.filter (fun x => decide (x ∉ l1)))).symm).nodup
  apply List.Nodup.append
  · exact h1.imp (fun hab => ne_of_lt hab)
  · exact (h2.imp (fun hab => ne_of_lt hab)).filter _
  · intro x hx1 hx2
    rcases List.mem_filter.1 hx2 with ⟨_, hdec⟩
    simp only [decide_eq_true_eq] at hdec
    exact hdec hx1

/-- C1: For every pair of strictly ascending, duplicate-free integer lists
(with any nonnegative skip strides, including the empty list on either
side), `perform_and_query` returns the sorted list of elements in both
inputs, `perform_or_query` the sorted deduplicated list of elements in
either input, and `perform_and_not_query` the sorted list of elements of
the first input not in the second — each equal to a naive set-based
reference implementation. -/
theorem merge_ops_match_naive_references (l1 l2 : List Int) (s1 s2 : Nat)
    (h1 : l1.Pairwise (· < ·)) (h2 : l2.Pairwise (· < ·)) :
    (perform_and_query ⟨l1, s1⟩ ⟨l2, s2⟩).map QueryResult.doc_Ids
        = some (naive_and l1 l2) ∧
    (perform_or_query ⟨l1, s1⟩ ⟨l2, s2⟩).map QueryResult.doc_Ids
        = some (naive_or l1 l2) ∧
    (perform_and_not_query ⟨l1, s1⟩ ⟨l2, s2⟩).map QueryResult.doc_Ids
        = some (naive_and_not l1 l2) := by
  refine ⟨?_, ?_, ?_⟩
  · unfold perform_and_query
    rw [and_mergeF_spec h1 h2 s1 s2 (l1.length + l2.length + 1) 0 0 (by omega)]
    simp [naive_and]
  · unfold perform_or_query
    dsimp only
    by_cases he1 : l1.length = 0
    · have hl1 : l1 = [] := List.length_eq_zero.1 he1
      subst hl1
      rw [if_pos (Or.inl he1), if_neg (by omega)]
      unfold naive_or
      have hfl : l2.filter (fun x => decide (x ∉ ([] : List Int))) = l2 := by
        simp
      rw [List.nil_append, hfl,
        List.Sorted.insertionSort_eq (h2.imp (fun hab => le_of_lt hab))]
      simp
    · by_cases he2 : l2.length = 0
      · have hl2 : l2 = [] := List.length_eq_zero.1 he2
        subst hl2
        rw [if_pos (Or.inr he2), if_pos (by omega)]
        unfold naive_or
        rw [List.filter_nil, List.append_nil,
          List.Sorted.insertionSort_eq (h1.imp (fun hab => le_of_lt hab))]
        simp
      · rw [if_neg (by push_neg; exact ⟨he1, he2⟩)]
        rw [or_mergeF_spec l1 l2 (l1.length + l2.length + 1) 0 0 (by omega)]
        simp only [List.drop_zero, Option.map_some']
        have : merge_dedup l1 l2 = naive_or l1 l2 := by
          apply sorted_lt_ext (merge_dedup_sorted h1 h2) (naive_or_sorted h1 h2)
          intro x
          rw [merge_dedup_mem, naive_or_mem]
        rw [← this]
  · unfold perform_and_not_query
    rw [and_not_mergeF_spec h1 h2 s2 (l1.length + l2.length + 1) 0 0 (by omega)]
    simp [naive_and_not]

/-- Witness for C1 at concrete inputs. -/
theorem merge_ops_match_naive_references_witness :
    (perform_and_query ⟨[1, 3], 1⟩ ⟨[3, 4], 0⟩).map QueryResult.doc_Ids
        = some (naive_and [1, 3] [3, 4]) ∧
    (perform_or_query ⟨[1, 3], 1⟩ ⟨[3, 4], 0⟩).map QueryResult.doc_Ids
        = some (naive_or [1, 3] [3, 4]) ∧
    (perform_and_not_query ⟨[1, 3], 1⟩ ⟨[3, 4], 0⟩).map QueryResult.doc_Ids
        = some (naive_and_not [1, 3] [3, 4]) :=
  merge_ops_match_naive_references [1, 3] [3, 4] 1 0 (by decide) (by decide)

/-- C8: For every pair of strictly ascending, duplicate-free input lists
and all strides (in particular 0, 1, or large), the skip-accelerated
intersection and set-difference produce results identical to the linear
(non-skipping) two-pointer merges of the same inputs. -/
theorem skip_merge_equals_linear_merge (l1 l2 : List Int) (s1 s2 : Nat)
    (h1 : l1.Pairwise (· < ·)) (h2 : l2.Pairwise (· < ·)) :
    (perform_and_query ⟨l1, s1⟩ ⟨l2, s2⟩).map QueryResult.doc_Ids
        = some (linear_and l1 l2) ∧
    (perform_and_not_query ⟨l1, s1⟩ ⟨l2, s2⟩).map QueryResult.doc_Ids
        = some (linear_and_not l1 l2) := by
  constructor
  · unfold perform_and_query
    rw [and_mergeF_spec h1 h2 s1 s2 (l1.length + l2.length + 1) 0 0 (by omega),
      linear_and_spec h1 h2]
    simp
  · unfold perform_and_not_query
    rw [and_not_mergeF_spec h1 h2 s2 (l1.length + l2.length + 1) 0 0 (by omega),
      linear_and_not_spec h1 h2]
    simp

/-- Witness for C8 at concrete inputs with strides 0 and 5. -/
theorem skip_merge_equals_linear_merge_witness :
    (perform_and_query ⟨[1, 2, 9], 0⟩ ⟨[2, 9], 5⟩).map QueryResult.doc_Ids
        = some (linear_and [1, 2, 9] [2, 9]) ∧
    (perform_and_not_query ⟨[1, 2, 9], 0⟩ ⟨[2, 9], 5⟩).map QueryResult.doc_Ids
        = some (linear_and_not [1, 2, 9] [2, 9]) :=
  skip_merge_equals_linear_merge [1, 2, 9] [2, 9] 0 5 (by decide) (by decide)

/-- C10: For all input lists, all nonnegative strides and all loop states,
the intersection and set-difference merge loops never perform an
out-of-range access (all checked accesses, including the guarded skip
lookahead `l[i + stride]`, succeed) and are total: with sufficient fuel
they always return a result, as do the top-level query operations. -/
theorem merge_loops_total_no_oob :
    (∀ (l1 l2 : List Int) (s1 s2 fuel i j : Nat),
        (l1.length - i) + (l2.length - j) < fuel →
        (and_mergeF fuel l1 l2 s1 s2 i j).isSome = true ∧
        (and_not_mergeF fuel l1 l2 s2 i j).isSome = true) ∧
    (∀ o1 o2 : QueryResult, (perform_and_query o1 o2).isSome = true ∧
        (perform_and_not_query o1 o2).isSome = true) := by
  constructor
  · intro l1 l2 s1 s2 fuel i j hm
    exact ⟨and_mergeF_total l1 l2 s1 s2 fuel i j hm,
      and_not_mergeF_total l1 l2 s2 fuel i j hm⟩
  · intro o1 o2
    constructor
    · unfold perform_and_query
      have h := and_mergeF_total o1.doc_Ids o2.doc_Ids o1.skip_len o2.skip_len
        (o1.doc_Ids.length + o2.doc_Ids.length + 1) 0 0 (by omega)
      rcases Option.isSome_iff_exists.1 h with ⟨r, hr⟩
      rw [hr]
      simp
    · unfold perform_and_not_query
      have h := and_not_mergeF_total o1.doc_Ids o2.doc_Ids o2.skip_len
        (o1.doc_Ids.length + o2.doc_Ids.length + 1) 0 0 (by omega)
      rcases Option.isSome_iff_exists.1 h with ⟨r, hr⟩
      rw [hr]
      simp

/-- Witness for C10 at concrete inputs. -/
theorem merge_loops_total_no_oob_witness :
    ((and_mergeF 5 [1, 7] [2, 7] 1 1 0 0).isSome = true ∧
      (and_not_mergeF 5 [1, 7] [2, 7] 1 0 0).isSome = true) ∧
    (perform_and_query ⟨[4], 0⟩ ⟨[], 3⟩).isSome = true :=
  ⟨merge_loops_total_no_oob.1 [1, 7] [2, 7] 1 1 5 0 0 (by decide),
    (merge_loops_total_no_oob.2 ⟨[4], 0⟩ ⟨[], 3⟩).1⟩

/-- C9 counterexample: a stride of 1 does NOT disable skipping — at
position 0 of a 2-element list `has_skip` reports a usable skip
(0 mod 1 = 0 and 0 + 1 < 2), refuting "a stride of 0 or 1 disables
skipping (never yields a usable skip)". -/
theorem has_skip_stride_one_counterexample : has_skip 0 1 2 = true := by decide

/-- C9 amended: a stride of 0 never yields a usable skip; for every stride
s ≥ 1 (including 1), `has_skip i s n` holds exactly when i mod s = 0 and
i + s < n. -/
theorem has_skip_characterization :
    (∀ i n : Nat, has_skip i 0 n = false) ∧
    (∀ i s n : Nat, 1 ≤ s →
      (has_skip i s n = true ↔ i % s = 0 ∧ i + s < n)) := by
  constructor
  · intro i n
    unfold has_skip
    simp
  · intro i s n hs
    rw [has_skip_true_iff]
    constructor
    · intro h; exact ⟨h.2.1, h.2.2⟩
    · intro h; exact ⟨by omega, h.1, h.2⟩

/-- Witness for C9's amended characterization at concrete inputs. -/
theorem has_skip_characterization_witness :
    has_skip 0 0 5 = false ∧ (has_skip 2 2 9 = true ↔ 2 % 2 = 0 ∧ 2 + 2 < 9) :=
  ⟨has_skip_characterization.1 0 5, has_skip_characterization.2 2 2 9 (by decide)⟩

theorem int_sqrt_bounds : ∀ n : Nat,
    int_sqrt n * int_sqrt n ≤ n ∧ n < (int_sqrt n + 1) * (int_sqrt n + 1) := by
  intro n
  induction n with
  | zero => simp [int_sqrt]
  | succ n ih =>
    rw [int_sqrt]
    split_ifs with h
    · refine ⟨h, ?_⟩
      rcases ih with ⟨ih1, ih2⟩
      nlinarith
    · rcases ih with ⟨ih1, ih2⟩
      exact ⟨by omega, by omega⟩

theorem int_sqrt_eq_sqrt (n : Nat) : int_sqrt n = Nat.sqrt n := by
  rcases int_sqrt_bounds n with ⟨h1, h2⟩
  have ha : int_sqrt n ≤ Nat.sqrt n := Nat.le_sqrt.2 h1
  have hb : Nat.sqrt n < int_sqrt n + 1 := Nat.sqrt_lt.2 h2
  omega

theorem write_index_aux_entries :
    ∀ (pls : List (String × List Int)) (offset : Nat) (w : String)
      (n off sz sk : Nat),
      (w, n, off, sz, sk) ∈ (write_index_aux pls offset).1 →
      sk = Nat.sqrt n ∧ ∃ pl, (w, pl) ∈ pls ∧ n = pl.length := by
  intro pls
  induction pls with
  | nil => intro offset w n off sz sk h; simp [write_index_aux] at h
  | cons hd rest ih =>
    intro offset w n off sz sk h
    rcases hd with ⟨w0, pl0⟩
    simp only [write_index_aux, List.mem_cons, Prod.mk.injEq] at h
    rcases h with ⟨hw, hn, hoff, hsz, hsk⟩ | h
    · subst hw hn hsk
      exact ⟨(int_sqrt_eq_sqrt _).symm ▸ (int_sqrt_eq_sqrt _),
        pl0, List.mem_cons_self _ _, rfl⟩
    · obtain ⟨hsk, pl, hm, hn⟩ := ih _ w n off sz sk h
      exact ⟨hsk, pl, List.mem_cons_of_mem _ hm, hn⟩

/-- C5 counterexample: the union short-circuit on an empty second operand
returns the first operand's four-element list with recorded stride 0,
although floor(sqrt(4)) = 2 — so not every derived Query Result carries
stride floor(sqrt(length)). -/
theorem or_query_short_circuit_stride_zero :
    perform_or_query ⟨[10, 20, 30, 40], 2⟩ ⟨[], 0⟩
      = some ⟨[10, 20, 30, 40], 0⟩ ∧
    Nat.sqrt ([10, 20, 30, 40] : List Int).length = 2 := by
  constructor
  · rfl
  · rw [← int_sqrt_eq_sqrt]
    rfl

/-- C5 amended: every stored dictionary entry records stride
floor(sqrt(num_docs)), and every Query Result derived by the intersection,
set-difference, or two-nonempty-operand union merges records stride
floor(sqrt(result length)); the union short-circuit instead returns the
non-empty operand's list with stride 0. -/
theorem skip_stride_sqrt_except_or_short_circuit :
    (∀ (pls : List (String × List Int)) (w : String) (n off sz sk : Nat),
        (w, n, off, sz, sk) ∈ (write_index_to_disk pls).1 → sk = Nat.sqrt n) ∧
    (∀ o1 o2 : QueryResult,
        (perform_and_query o1 o2).map QueryResult.skip_len
          = (perform_and_query o1 o2).map (fun r => Nat.sqrt r.doc_Ids.length)) ∧
    (∀ o1 o2 : QueryResult,
        (perform_and_not_query o1 o2).map QueryResult.skip_len
          = (perform_and_not_query o1 o2).map (fun r => Nat.sqrt r.doc_Ids.length)) ∧
    (∀ o1 o2 : QueryResult, o1.doc_Ids ≠ [] → o2.doc_Ids ≠ [] →
        (perform_or_query o1 o2).map QueryResult.skip_len
          = (perform_or_query o1 o2).map (fun r => Nat.sqrt r.doc_Ids.length)) ∧
    (∀ o1 o2 : QueryResult, o2.doc_Ids = [] → o1.doc_Ids ≠ [] →
        perform_or_query o1 o2 = some ⟨o1.doc_Ids, 0⟩) := by
  refine ⟨?_, ?_, ?_, ?_, ?_⟩
  · intro pls w n off sz sk h
    exact (write_index_aux_entries pls 0 w n off sz sk h).1
  · intro o1 o2
    unfold perform_and_query
    cases and_mergeF (o1.doc_Ids.length + o2.doc_Ids.length + 1)
        o1.doc_Ids o2.doc_Ids o1.skip_len o2.skip_len 0 0 with
    | none => rfl
    | some r => simp [int_sqrt_eq_sqrt]
  · intro o1 o2
    unfold perform_and_not_query
    cases and_not_mergeF (o1.doc_Ids.length + o2.doc_Ids.length + 1)
        o1.doc_Ids o2.doc_Ids o2.skip_len 0 0 with
    | none => rfl
    | some r => simp [int_sqrt_eq_sqrt]
  · intro o1 o2 h1 h2
    unfold perform_or_query
    rw [if_neg (by
      push_neg
      constructor
      · intro hc; exact h1 (List.length_eq_zero.1 hc)
      · intro hc; exact h2 (List.length_eq_zero.1 hc))]
    cases or_mergeF (o1.doc_Ids.length + o2.doc_Ids.length + 1)
        o1.doc_Ids o2.doc_Ids 0 0 with
    | none => rfl
    | some r => simp [int_sqrt_eq_sqrt]
  · intro o1 o2 h2 h1
    unfold perform_or_query
    rw [if_pos (Or.inr (by rw [h2]; rfl)),
      if_pos (by
        cases ho : o1.doc_Ids with
        | nil => exact absurd ho h1
        | cons a t => simp)]

/-- Witness for C5's amended statement at concrete inputs. -/
theorem skip_stride_sqrt_except_or_short_circuit_witness :
    (1 : Nat) = Nat.sqrt 2 ∧
    perform_or_query ⟨[7], 1⟩ ⟨[], 0⟩ = some ⟨[7], 0⟩ :=
  ⟨skip_stride_sqrt_except_or_short_circuit.1 [("w", [3, 5])] "w" 2 0 4 1
      (by decide),
    skip_stride_sqrt_except_or_short_circuit.2.2.2.2 ⟨[7], 1⟩ ⟨[], 0⟩ rfl
      (by decide)⟩

/-! ## Serialisation round-trip lemmas -/

theorem digitChar_facts : ∀ d : Nat, d < 10 →
    (digitChar d).isDigit = true ∧ (digitChar d).toNat - 48 = d ∧
    digitChar d ≠ ',' ∧ digitChar d ≠ '-' := by
  intro d hd
  interval_cases d <;> refine ⟨by decide, by decide, by decide, by decide⟩

theorem digitsVal_append (xs : List Char) (c : Char) :
    digitsVal (xs ++ [c]) = digitsVal xs * 10 + (c.toNat - 48) := by
  simp [digitsVal, List.foldl_append]

theorem natToCharsF_spec : ∀ fuel n, n < fuel →
    natToCharsF fuel n ≠ [] ∧
    (∀ c ∈ natToCharsF fuel n, ∃ d, d < 10 ∧ c = digitChar d) ∧
    digitsVal (natToCharsF fuel n) = n := by
  intro fuel
  induction fuel with
  | zero => intro n h; omega
  | succ fuel ih =>
    intro n hn
    rw [natToCharsF]
    split_ifs with h10
    · refine ⟨by simp, ?_, ?_⟩
      · intro c hc
        rcases List.mem_singleton.1 hc with rfl
        exact ⟨n, h10, rfl⟩
      · rcases digitChar_facts n h10 with ⟨_, hval, _, _⟩
        simp [digitsVal, hval]
    · have hdiv : n / 10 < fuel := by
        have h1 : n / 10 < n := Nat.div_lt_self (by omega) (by norm_num)
        omega
      obtain ⟨hne, hmem, hval⟩ := ih (n / 10) hdiv
      refine ⟨by simp, ?_, ?_⟩
      · intro c hc
        rcases List.mem_append.1 hc with h | h
        · exact hmem c h
        · rcases List.mem_singleton.1 h with rfl
          exact ⟨n % 10, Nat.mod_lt _ (by norm_num), rfl⟩
      · rw [digitsVal_append, hval,
          (digitChar_facts (n % 10) (Nat.mod_lt _ (by norm_num))).2.1]
        omega

theorem natToChars_spec (n : Nat) :
    natToChars n ≠ [] ∧
    (∀ c ∈ natToChars n, ∃ d, d < 10 ∧ c = digitChar d) ∧
    digitsVal (natToChars n) = n :=
  natToCharsF_spec (n + 1) n (by omega)

theorem parseDigits_natToChars (n : Nat) :
    parseDigits (natToChars n) = some n := by
  obtain ⟨hne, hmem, hval⟩ := natToChars_spec n
  unfold parseDigits
  rw [if_neg hne, if_pos, hval]
  rw [List.all_eq_true]
  intro c hc
  obtain ⟨d, hd, rfl⟩ := hmem c hc
  exact (digitChar_facts d hd).1

theorem natToChars_head_not_neg (n : Nat) :
    (natToChars n).head? ≠ some '-' := by
  obtain ⟨hne, hmem, _⟩ := natToChars_spec n
  cases hcs : natToChars n with
  | nil => exact absurd hcs hne
  | cons c cs =>
    intro hcon
    simp only [List.head?_cons, Option.some.injEq] at hcon
    obtain ⟨d, hd, hc⟩ := hmem c (hcs ▸ List.mem_cons_self c cs)
    exact (digitChar_facts d hd).2.2.2 (hc ▸ hcon)

theorem parseInt_intToChars (n : Int) : parseInt (intToChars n) = some n := by
  unfold intToChars
  split_ifs with hneg
  · unfold parseInt
    rw [if_pos (by simp)]
    simp only [List.tail_cons]
    rw [parseDigits_natToChars]
    simp
    omega
  · unfold parseInt
    rw [if_neg (natToChars_head_not_neg n.toNat)]
    rw [parseDigits_natToChars]
    simp
    omega

theorem splitOnComma_no_comma : ∀ {p : List Char}, ',' ∉ p →
    splitOnComma p = [p] := by
  intro p
  induction p with
  | nil => intro _; rfl
  | cons c cs ih =>
    intro h
    rw [splitOnComma]
    rw [if_neg (by intro hc; subst hc; exact h (List.mem_cons_self _ _))]
    rw [ih (fun hm => h (List.mem_cons_of_mem c hm))]

theorem splitOnComma_append : ∀ {p : List Char}, ',' ∉ p → ∀ rest : List Char,
    splitOnComma (p ++ ',' :: rest) = p :: splitOnComma rest := by
  intro p
  induction p with
  | nil =>
    intro _ rest
    rw [List.nil_append, splitOnComma, if_pos rfl]
  | cons c cs ih =>
    intro h rest
    rw [List.cons_append, splitOnComma]
    rw [if_neg (by intro hc; subst hc; exact h (List.mem_cons_self _ _))]
    rw [ih (fun hm => h (List.mem_cons_of_mem c hm)) rest]

theorem splitOnComma_joinComma : ∀ pss : List (List Char), pss ≠ [] →
    (∀ p ∈ pss, ',' ∉ p) → splitOnComma (joinComma pss) = pss := by
  intro pss
  induction pss with
  | nil => intro h _; exact absurd rfl h
  | cons p ps ih =>
    intro _ hno
    cases ps with
    | nil =>
      rw [joinComma]
      exact splitOnComma_no_comma (hno p (List.mem_cons_self _ _))
    | cons q qs =>
      rw [joinComma, splitOnComma_append (hno p (List.mem_cons_self _ _)),
        ih (List.cons_ne_nil q qs) (fun r hr => hno r (List.mem_cons_of_mem p hr))]
      exact List.cons_ne_nil q qs

theorem comma_not_mem_intToChars (n : Int) : ',' ∉ intToChars n := by
  unfold intToChars
  split_ifs with hneg
  · intro hm
    rcases List.mem_cons.1 hm with h | h
    · exact absurd h.symm (by decide)
    · obtain ⟨d, hd, hc⟩ := (natToChars_spec (-n).toNat).2.1 ',' h
      exact (digitChar_facts d hd).2.2.1 hc.symm
  · intro hm
    obtain ⟨d, hd, hc⟩ := (natToChars_spec n.toNat).2.1 ',' hm
    exact (digitChar_facts d hd).2.2.1 hc.symm

theorem parseAll_map_intToChars : ∀ pl : List Int,
    parseAll (pl.map intToChars) = some pl := by
  intro pl
  induction pl with
  | nil => rfl
  | cons a t ih =>
    rw [List.map_cons, parseAll, parseInt_intToChars, ih]

/-- Reading back exactly the bytes written for a non-empty postings list,
at its recorded offset and size, recovers the list. -/
theorem read_back_write (pre post : List Char) (pl : List Int) (hne : pl ≠ []) :
    parseAll (splitOnComma
      ((((pre ++ (write_postings_list pl ++ post)).drop pre.length).take
        (write_postings_list pl).length).dropLast)) = some pl := by
  rw [List.drop_left pre (write_postings_list pl ++ post)]
  rw [List.take_left (write_postings_list pl) post]
  unfold write_postings_list
  rw [List.dropLast_concat]
  rw [splitOnComma_joinComma (pl.map intToChars) (by simpa using hne)
    (fun p hp => by
      rcases List.mem_map.1 hp with ⟨a, _, rfl⟩
      exact comma_not_mem_intToChars a)]
  exact parseAll_map_intToChars pl

/-- C4 counterexample: a length-0 postings list is written as the single
delimiter character, and reading back its recorded (offset 0, size 1) range
fails (the empty string does not parse as an integer), so the round trip
does not hold for lists of length 0. -/
theorem write_read_empty_list_fails :
    write_postings_list ([] : List Int) = [' '] ∧
    read_postings_list_from_disk "w"
      (fun _ => some (0, 0, (write_postings_list ([] : List Int)).length, 0))
      (write_postings_list ([] : List Int)) = none := by
  constructor
  · rfl
  · rfl

/-- C4 amended: for every postings list of length 1 or N ≥ 1, writing it
with `write_postings_list` and reading back exactly the recorded
(offset, byte_size) range with `read_postings_list_from_disk` yields the
identical sequence of document IDs; the length-0 round trip fails (see the
counterexample). -/
theorem write_read_roundtrip_nonempty (pre post : List Char) (pl : List Int)
    (dictionary : Dict) (w : String) (n sk : Nat)
    (hd : dictionary w = some (n, pre.length, (write_postings_list pl).length, sk))
    (hne : pl ≠ []) :
    read_postings_list_from_disk w dictionary
      (pre ++ (write_postings_list pl ++ post)) = some pl := by
  unfold read_postings_list_from_disk
  rw [hd]
  exact read_back_write pre post pl hne

/-- Witness for C4's amended round trip at a concrete two-element list. -/
theorem write_read_roundtrip_nonempty_witness :
    read_postings_list_from_disk "w"
      (fun _ => some (2, 1, (write_postings_list [12, -3]).length, 1))
      (['x'] ++ (write_postings_list [12, -3] ++ ['y'])) = some [12, -3] :=
  write_read_roundtrip_nonempty ['x'] ['y'] [12, -3]
    (fun _ => some (2, 1, (write_postings_list [12, -3]).length, 1)) "w" 2 1
    rfl (by decide)

/-! ## Shunting-yard lemmas -/

theorem spanpred_not :
    (fun s => decide (s ≠ "(" ∧ sy_prec "NOT" < sy_prec s))
      = (fun _ : String => false) := by
  funext s
  unfold sy_prec
  by_cases h1 : s = "NOT" <;> by_cases h2 : s = "AND" <;>
    by_cases h3 : s = "OR" <;> simp [h1, h2, h3]

theorem spanpred_and :
    (fun s => decide (s ≠ "(" ∧ sy_prec "AND" < sy_prec s))
      = (fun s => decide (s = "NOT")) := by
  funext s
  unfold sy_prec
  by_cases h1 : s = "NOT" <;> by_cases h2 : s = "AND" <;>
    by_cases h3 : s = "OR" <;> simp [h1, h2, h3]

theorem spanpred_or :
    (fun s => decide (s ≠ "(" ∧ sy_prec "OR" < sy_prec s))
      = (fun s => decide (s = "NOT" ∨ s = "AND")) := by
  funext s
  unfold sy_prec
  by_cases h1 : s = "NOT" <;> by_cases h2 : s = "AND" <;>
    by_cases h3 : s = "OR" <;> simp [h1, h2, h3]

theorem span_false_pred (l : List String) :
    l.span (fun _ => false) = ([], l) := by
  rw [List.span_eq_take_drop]
  simp

/-- The source's token-by-token operator handling coincides with the
uniform strictly-higher-precedence popping loop. -/
theorem sy_run_eq_strict (nrm : String → String) :
    ∀ (ts out ops : List String),
      sy_run nrm ts out ops = sy_strict_run nrm ts out ops := by
  intro ts
  induction ts with
  | nil => intro out ops; rfl
  | cons tok ts ih =>
    intro out ops
    rw [sy_run, sy_strict_run]
    by_cases h1 : tok = "("
    · rw [if_pos h1, if_pos h1, ih]
    · rw [if_neg h1, if_neg h1]
      by_cases h2 : tok = ")"
      · rw [if_pos h2, if_pos h2]
        dsimp only
        rcases hsp : (ops.span (fun s => decide (s ≠ "("))).2 with _ | ⟨c, rest⟩
        · rfl
        · exact ih _ _
      · rw [if_neg h2, if_neg h2]
        by_cases h3 : tok = "NOT"
        · rw [if_pos h3, if_pos (Or.inl h3)]
          subst h3
          simp only [spanpred_not, span_false_pred, List.append_nil]
          exact ih _ _
        · rw [if_neg h3]
          by_cases h4 : tok = "AND"
          · rw [if_pos h4, if_pos (Or.inr (Or.inl h4))]
            subst h4
            simp only [spanpred_and]
            exact ih _ _
          · rw [if_neg h4]
            by_cases h5 : tok = "OR"
            · rw [if_pos h5, if_pos (Or.inr (Or.inr h5))]
              subst h5
              simp only [spanpred_or]
              exact ih _ _
            · rw [if_neg h5, if_neg (by
                rintro (h | h | h)
                · exact h3 h
                · exact h4 h
                · exact h5 h)]
              exact ih _ _

/-- C7 counterexample: on `a AND b AND c` the source's shunting_yard does
NOT pop the pending equal-precedence AND (output associates to the right),
while the claimed equal-or-higher popping loop does, so the two algorithms
disagree. -/
theorem shunting_yard_equal_precedence_counterexample :
    shunting_yard (fun s => s) ["a", "AND", "b", "AND", "c"]
      = some ["a", "b", "c", "AND", "AND"] ∧
    shunting_yard_claim (fun s => s) ["a", "AND", "b", "AND", "c"]
      = some ["a", "b", "AND", "c", "AND"] ∧
    (["a", "b", "c", "AND", "AND"] : List String)
      ≠ ["a", "b", "AND", "c", "AND"] := by
  refine ⟨rfl, rfl, by decide⟩

/-- C7 amended: `shunting_yard` implements the shunting-yard loop that, on
seeing an operator, pops only operators of STRICTLY higher precedence
(NOT > AND > OR) to the output before pushing — equal-precedence operators
stay on the stack; ')' pops to the matching '(' which is discarded, and at
end of stream the operator stack is flushed in LIFO order, as in the
uniform reference loop `shunting_yard_strict`. -/
theorem shunting_yard_pops_strictly_higher (nrm : String → String)
    (tokens : List String) :
    shunting_yard nrm tokens = shunting_yard_strict nrm tokens :=
  sy_run_eq_strict nrm tokens [] []

/-! ## Index builder lemmas -/

theorem processTokens_spec (nrm : String → String) (d : Int) :
    ∀ (ws : List String) (m : String → List Int) (t : String),
      processTokens nrm d ws m t =
        if t ∈ ws.map nrm ∧ (m t).getLast? ≠ some d then m t ++ [d] else m t := by
  intro ws
  induction ws with
  | nil =>
    intro m t
    rw [processTokens]
    simp
  | cons w ws ih =>
    intro m t
    rw [processTokens, ih]
    by_cases ht : t = nrm w
    · have hmt : (if t = nrm w then addToken (m t) d else m t) = addToken (m t) d :=
        if_pos ht
      rw [hmt]
      by_cases hl : (m t).getLast? = some d
      · have haddeq : addToken (m t) d = m t := by
          unfold addToken
          rw [if_pos hl]
        rw [haddeq, if_neg (fun hcon => hcon.2 hl),
          if_neg (fun hcon => hcon.2 hl)]
      · have haddeq : addToken (m t) d = m t ++ [d] := by
          unfold addToken
          rw [if_neg hl]
        rw [haddeq,
          if_neg (fun hcon => hcon.2 (List.getLast?_concat (m t))),
          if_pos ⟨List.mem_map.2 ⟨w, List.mem_cons_self w ws, ht.symm⟩, hl⟩]
    · have hmt : (if t = nrm w then addToken (m t) d else m t) = m t :=
        if_neg ht
      rw [hmt]
      simp only [List.map_cons, List.mem_cons, ht, false_or]

theorem processDoc_spec (nrm : String → String) (d : Int) (ws : List String)
    (m : String → List Int) (t : String)
    (hbound : ∀ x ∈ m t, x < d) :
    processDoc nrm d ws m t =
      if t = ALL_DOC_IDS then m t ++ [d]
      else if t ∈ ws.map nrm then m t ++ [d] else m t := by
  unfold processDoc
  rw [processTokens_spec]
  by_cases hall : t = ALL_DOC_IDS
  · rw [if_pos hall, if_pos hall,
      if_neg (fun hcon => hcon.2 (List.getLast?_concat (m t)))]
  · rw [if_neg hall, if_neg hall]
    have hlast : (m t).getLast? ≠ some d := by
      intro hcon
      exact absurd rfl (ne_of_lt (hbound d (getLast?_mem_of_eq hcon)))
    by_cases hmem : t ∈ ws.map nrm
    · rw [if_pos ⟨hmem, hlast⟩, if_pos hmem]
    · rw [if_neg (fun hcon => hmem hcon.1), if_neg hmem]

theorem create_fold_spec (nrm : String → String) (contents : Int → List String) :
    ∀ (docs : List Int) (m : String → List Int),
      docs.Pairwise (· < ·) →
      (∀ t x, x ∈ m t → ∀ d ∈ docs, x < d) →
      ∀ t, docs.foldl (fun acc d => processDoc nrm d (contents d) acc) m t =
        if t = ALL_DOC_IDS then m t ++ docs
        else m t ++ docs.filter (fun d => decide (t ∈ (contents d).map nrm)) := by
  intro docs
  induction docs with
  | nil =>
    intro m _ _ t
    split_ifs <;> simp
  | cons d ds ih =>
    intro m hp hb t
    rcases List.pairwise_cons.1 hp with ⟨hd, hp2⟩
    rw [List.foldl_cons]
    have hb2 : ∀ t' x, x ∈ processDoc nrm d (contents d) m t' →
        ∀ d' ∈ ds, x < d' := by
      intro t' x hx d' hd'
      rw [processDoc_spec nrm d (contents d) m t'
        (fun y hy => hb t' y hy d (List.mem_cons_self d ds))] at hx
      split_ifs at hx with h1 h2
      · rcases List.mem_append.1 hx with h | h
        · exact hb t' x h d' (List.mem_cons_of_mem d hd')
        · rcases List.mem_singleton.1 h with rfl
          exact hd d' hd'
      · rcases List.mem_append.1 hx with h | h
        · exact hb t' x h d' (List.mem_cons_of_mem d hd')
        · rcases List.mem_singleton.1 h with rfl
          exact hd d' hd'
      · exact hb t' x hx d' (List.mem_cons_of_mem d hd')
    rw [ih _ hp2 hb2 t,
      processDoc_spec nrm d (contents d) m t
        (fun y hy => hb t y hy d (List.mem_cons_self d ds))]
    by_cases hall : t = ALL_DOC_IDS
    · rw [if_pos hall, if_pos hall, if_pos hall, List.append_assoc]
      rfl
    · rw [if_neg hall, if_neg hall, if_neg hall]
      by_cases hmem : t ∈ (contents d).map nrm
      · rw [if_pos hmem, List.filter_cons, if_pos (decide_eq_true hmem),
          List.append_assoc]
        rfl
      · rw [if_neg hmem, List.filter_cons,
          if_neg (by simp only [decide_eq_true_eq]; exact hmem)]

/-- C2: For every set of integer file names (each file name parsed as the
document ID) and every term other than the reserved sentinel, the postings
list produced by `create_postings_lists` is strictly ascending with no
duplicate document IDs, and its length equals the number of distinct
documents whose normalized token stream contains that term; the sentinel
all-documents list is strictly ascending and contains exactly the document
IDs of the collection. -/
theorem create_postings_lists_sorted_nodup_counts
    (nrm : String → String) (files : List Int) (contents : Int → List String)
    (hnd : files.Nodup) (t : String) (ht : t ≠ ALL_DOC_IDS) :
    (create_postings_lists nrm files contents t).Pairwise (· < ·) ∧
    (create_postings_lists nrm files contents t).Nodup ∧
    (create_postings_lists nrm files contents t).length
      = (files.filter (fun d => decide (t ∈ (contents d).map nrm))).length ∧
    (create_postings_lists nrm files contents ALL_DOC_IDS).Pairwise (· < ·) ∧
    (∀ d : Int, d ∈ create_postings_lists nrm files contents ALL_DOC_IDS
      ↔ d ∈ files) := by
  have hsorted : (get_sorted_file_names files).Pairwise (· < ·) := by
    apply pairwise_lt_of_sorted_nodup (List.sorted_insertionSort (· ≤ ·) files)
    exact ((List.perm_insertionSort (· ≤ ·) files).symm).nodup hnd
  have hchar : ∀ t', create_postings_lists nrm files contents t' =
      if t' = ALL_DOC_IDS then get_sorted_file_names files
      else (get_sorted_file_names files).filter
        (fun d => decide (t' ∈ (contents d).map nrm)) := by
    intro t'
    unfold create_postings_lists
    rw [create_fold_spec nrm contents _ _ hsorted
      (fun t0 x hx d hd => absurd hx (List.not_mem_nil x)) t']
    split_ifs <;> simp
  refine ⟨?_, ?_, ?_, ?_, ?_⟩
  · rw [hchar t, if_neg ht]
    exact hsorted.filter _
  · rw [hchar t, if_neg ht]
    exact (hsorted.filter _).imp (fun hab => ne_of_lt hab)
  · rw [hchar t, if_neg ht]
    exact ((List.perm_insertionSort (· ≤ ·) files).filter _).length_eq
  · rw [hchar ALL_DOC_IDS, if_pos rfl]
    exact hsorted
  · intro d
    rw [hchar ALL_DOC_IDS, if_pos rfl]
    exact List.mem_insertionSort _

/-- Witness for C2 at a concrete two-document collection. -/
theorem create_postings_lists_sorted_nodup_counts_witness :
    (create_postings_lists (fun s => s) [2, 1]
        (fun d => if d = 1 then ["x"] else []) "x").Pairwise (· < ·) ∧
    (create_postings_lists (fun s => s) [2, 1]
        (fun d => if d = 1 then ["x"] else []) "x").Nodup ∧
    (create_postings_lists (fun s => s) [2, 1]
        (fun d => if d = 1 then ["x"] else []) "x").length
      = (([2, 1] : List Int).filter
          (fun d => decide ("x" ∈ ((if d = 1 then ["x"] else []) : List String).map
            (fun s => s)))).length ∧
    (create_postings_lists (fun s => s) [2, 1]
        (fun d => if d = 1 then ["x"] else []) ALL_DOC_IDS).Pairwise (· < ·) ∧
    (∀ d : Int, d ∈ create_postings_lists (fun s => s) [2, 1]
        (fun d => if d = 1 then ["x"] else []) ALL_DOC_IDS ↔ d ∈ ([2, 1] : List Int)) :=
  create_postings_lists_sorted_nodup_counts (fun s => s) [2, 1]
    (fun d => if d = 1 then ["x"] else []) (by decide) "x" (by decide)

/-! ## Evaluator lemmas -/

/-- A non-operator token resolves to its query result and is pushed. -/
theorem evalLoop_term_step (dictionary : Dict) (postings : List Char)
    (w : String) (ts : List String) (stack : List QueryResult)
    (prev : Option QueryResult) (q : QueryResult)
    (hn : w ≠ "NOT") (ha : w ≠ "AND") (ho : w ≠ "OR")
    (hq : get_query_result_term w dictionary postings = some q) :
    evalLoop dictionary postings (w :: ts) stack prev
      = evalLoop dictionary postings ts (q :: stack) (some q) := by
  rw [evalLoop.eq_def]
  split
  case _ h => simp at h
  case _ ts1 stack1 x h => simp only [List.cons.injEq] at h; exact absurd h.1 hn
  case _ ts1 stack1 x h => simp only [List.cons.injEq] at h; exact absurd h.1 hn
  case _ ts1 stack1 x h => simp only [List.cons.injEq] at h; exact absurd h.1 hn
  case _ ts1 stack1 x h => simp only [List.cons.injEq] at h; exact absurd h.1 ha
  case _ ts1 stack1 x h => simp only [List.cons.injEq] at h; exact absurd h.1 ho
  case _ tok ts1 hna hnn hnn2 hnA hnO heq =>
    simp only [List.cons.injEq] at heq
    obtain ⟨htok, hts⟩ := heq
    subst htok hts
    rw [hq]

/-- C3 counterexample: a stack underflow on the first query line aborts the
whole batch — `run_search` stops without processing the second line (which
alone evaluates fine) — and a postfix sequence leaving two operands on the
stack produces no error at all: the evaluator silently returns the top
element. -/
theorem run_search_aborts_batch_counterexample :
    run_search (fun s => s) exDict exFile [["AND"], ["a"]] = ([], false) ∧
    run_search (fun s => s) exDict exFile [["a"]] = ([[1]], true) ∧
    perform_search_query exDict exFile ["a", "b"] = some [2] := by
  refine ⟨by decide, by decide, by decide⟩

/-- C3 amended: a malformed postfix sequence is NOT reported as a
recoverable per-line `InvalidQuery`: any failing line (e.g. an operand
stack underflow, modelled as `none`) makes `run_search` abort the whole
batch, processing no further lines; a lone `AND` underflows; and a
sequence leaving more than one operand on the stack is not detected — the
evaluator returns the top element silently. -/
theorem run_search_failure_semantics :
    (∀ (nrm : String → String) (dictionary : Dict) (postings : List Char)
        (q : List String) (qs : List (List String)),
        (shunting_yard nrm q).bind (perform_search_query dictionary postings)
          = none →
        run_search nrm dictionary postings (q :: qs) = ([], false)) ∧
    (∀ (dictionary : Dict) (postings : List Char),
        perform_search_query dictionary postings ["AND"] = none) ∧
    (∀ (dictionary : Dict) (postings : List Char) (w1 w2 : String)
        (q1 q2 : QueryResult),
        w1 ≠ "NOT" → w1 ≠ "AND" → w1 ≠ "OR" →
        w2 ≠ "NOT" → w2 ≠ "AND" → w2 ≠ "OR" →
        get_query_result_term w1 dictionary postings = some q1 →
        get_query_result_term w2 dictionary postings = some q2 →
        perform_search_query dictionary postings [w1, w2] = some q2.doc_Ids) := by
  refine ⟨?_, ?_, ?_⟩
  · intro nrm dictionary postings q qs h
    rw [run_search, h]
  · intro dictionary postings
    rfl
  · intro dictionary postings w1 w2 q1 q2 h1n h1a h1o h2n h2a h2o hq1 hq2
    unfold perform_search_query
    rw [evalLoop_term_step dictionary postings w1 [w2] [] none q1 h1n h1a h1o hq1,
      evalLoop_term_step dictionary postings w2 [] [q1] (some q1) q2 h2n h2a h2o hq2]
    rfl

/-- Witness for C3's amended statement at concrete inputs. -/
theorem run_search_failure_semantics_witness :
    run_search (fun s => s) exDict exFile [["AND"], ["a"]] = ([], false) ∧
    perform_search_query exDict exFile ["AND"] = none ∧
    perform_search_query exDict exFile ["a", "b"]
      = some (QueryResult.doc_Ids ⟨[2], 1⟩) :=
  ⟨run_search_failure_semantics.1 (fun s => s) exDict exFile ["AND"] [["a"]]
      (by decide),
    run_search_failure_semantics.2.1 exDict exFile,
    run_search_failure_semantics.2.2 exDict exFile "a" "b" ⟨[1], 1⟩ ⟨[2], 1⟩
      (by decide) (by decide) (by decide) (by decide) (by decide) (by decide)
      (by decide) (by decide)⟩

/-- C6 (code bug): on a `NOT NOT` pair the evaluator consumes both tokens
but still executes the shared `stack.append(query_res)` with the stale
previous result, so the operand stack GROWS by a duplicate of its top
instead of staying unchanged.  Consequently postfix `a b NOT NOT AND`
(infix `a AND NOT NOT b`) evaluates to b's postings `[2]` instead of the
intersection `[]` computed for `a b AND`; and a query starting `NOT NOT`
hits the unbound variable (a NameError, modelled as `none`). -/
theorem not_not_pushes_stale_result :
    perform_search_query exDict exFile ["a", "b", "NOT", "NOT", "AND"]
      = some [2] ∧
    perform_search_query exDict exFile ["a", "b", "AND"] = some [] ∧
    perform_search_query exDict exFile ["NOT", "NOT"] = none := by
  refine ⟨by decide, by decide, by decide⟩
